import Mathlib

/-!
The package fillmore-labs/async: `Promise` and `Future`.

A shallow embedding of `promise.go` and `future.go`.

One `Promise[R]` lives in a `World`: the promise's three fields, the heap of
channels made for it by `Done`, and the caller state `E` that a function
handed to `Do` may read and write.  A pointer receiver is a `Ptr` (`nil` or the
promise of the world).  A Go panic is an `Outcome.panicked` that carries
the state at the moment of the panic, so what a recovered caller sees next is
part of the model.

`Future[R]` is declared as `type Future[R any] Promise[R]` and
`Promise.Future` is a pointer conversion: both views share the storage.

The development has three layers:

* the methods as functions on the `World`, and sequences of calls on one
  promise by one goroutine at a time (`Call`, `runCalls`, `trace`);
* goroutines: one resolving call and any number of `Await` calls cut into
  atomic steps and run under a schedule (`Conc`), with `NewAsync` as the
  program that starts the worker;
* the `Group` and `DoAsync` of the package `group`, of which the sources hold
  only the test.
-/

namespace Async

/-! ## Errors -/

/-- A non-nil Go `error` value. `ErrNotReady` is the package variable of
`future.go`; `leaf` is any other error made by `errors.New` (`errTest`,
`context.Canceled`, ...); `wrapf msg inner` is `fmt.Errorf(msg + "%w", inner)`. -/
inductive GoError where
  | ErrNotReady
  | leaf (msg : String)
  | wrapf (msg : String) (inner : GoError)
  deriving DecidableEq, Repr

/-- The Go interface type `error`: `none` is the nil error. -/
abbrev GoErr := Option GoError

/-- The package variable `ErrNotReady` as an `error`. -/
def ErrNotReady : GoErr := some GoError.ErrNotReady

/-- The text of `err.Error()`. -/
def GoError.Error : GoError → String
  | .ErrNotReady => "future not ready"
  | .leaf msg => msg
  | .wrapf msg inner => msg ++ inner.Error

/-- The chain walk of `errors.Is` for a non-nil error and a non-nil target:
compare, then unwrap. -/
def GoError.Is : GoError → GoError → Bool
  | .ErrNotReady, target => decide (GoError.ErrNotReady = target)
  | .leaf msg, target => decide (GoError.leaf msg = target)
  | .wrapf msg inner, target =>
      decide (GoError.wrapf msg inner = target) || inner.Is target

/-- The standard library `errors.Is(err, target)`. -/
def errorsIs : GoErr → GoErr → Bool
  | some e, some t => e.Is t
  | none, none => true
  | _, _ => false

/-! ## Channels -/

/-- A `chan struct{}` of the program: the package-level `closedChan` that
`Promise.close` installs, or a channel made by `Done` (its index in the heap).
A pointer to the variable that holds a channel is identified with that
channel: neither `closedChan` nor the variable made by `Done` is reassigned. -/
inductive Chan where
  | closedChan
  | made (id : Nat)
  deriving DecidableEq, Repr

/-- Modelled from the spec: the package variable `closedChan` ("a process-wide
shared immutable already-signaled handle") is not declared in the sources; it is a
channel that is closed from the start.  A channel made by `Done` is closed when
the heap says so.  No value is ever sent on these channels, so a receive
proceeds exactly when the channel is closed. -/
def chanClosed (chans : List Bool) : Chan → Bool
  | .closedChan => true
  | .made id => chans.getD id false

/-- Why a goroutine panicked. -/
inductive Panic where
  | closeOfClosedChannel
  | nilDereference
  | raised (msg : String)
  deriving DecidableEq, Repr

/-- The outcome of a call on state `σ` with result type `α`: it returned a
result, it panicked, or (only `Await`) it is parked with no case of its
`select` ready.  Each carries the state the call left behind; for a panic that
is the state at the moment of the panic, which is what the program goes on
with after a `recover`. -/
inductive Outcome (α σ : Type) where
  | returned (result : α) (s : σ)
  | panicked (why : Panic) (s : σ)
  | blocked (s : σ)
  deriving DecidableEq, Repr

/-- The state a call left behind. -/
def Outcome.state {α σ : Type} : Outcome α σ → σ
  | .returned _ s => s
  | .panicked _ s => s
  | .blocked s => s

/-- Whether the call panicked. -/
def Outcome.faulted {α σ : Type} : Outcome α σ → Bool
  | .panicked _ _ => true
  | _ => false

/-- The Go builtin `close(c)`: closing a closed channel panics. -/
def closeChan (chans : List Bool) : Chan → Outcome Unit (List Bool)
  | .closedChan => .panicked .closeOfClosedChannel chans
  | .made id =>
    if chans.getD id false then .panicked .closeOfClosedChannel chans
    else .returned () (chans.set id true)

/-! ## The promise -/

/-- The struct `Promise[R]`: `done` is the `atomic.Pointer[chan struct{}]`
(`none` is the nil pointer), `value` and `err` the result. -/
structure Promise (R : Type) where
  done : Option Chan
  value : R
  err : GoErr
  deriving DecidableEq, Repr

/-- `Future[R]` has the underlying type of `Promise[R]`. -/
abbrev Future (R : Type) := Promise R

/-- The memory a call works on: the heap of channels made by `Done` (`true` is
closed), the promise, and the caller state that a `fn` given to `Do` closes
over. -/
structure World (R E : Type) where
  chans : List Bool
  promise : Promise R
  env : E
  deriving DecidableEq, Repr

/-- A `*Promise[R]` or `*Future[R]`: nil, or the address of the promise of the
world. -/
inductive Ptr where
  | nil
  | obj
  deriving DecidableEq, Repr

/-- What a call of a `func() (R, error)` does: it returns a pair or panics. -/
inductive FnResult (R : Type) where
  | returns (value : R) (err : GoErr)
  | panics (msg : String)
  deriving DecidableEq, Repr

/-- A Go `func() (R, error)`: a closure over caller state `E`, which it may
change.  The closure holds no reference to the promise it is run for. -/
abbrev Func (R E : Type) := E → FnResult R × E

/-- A `context.Context` at the moment of a call.  By the contract of the
interface `Err()` is nil until the context is done, and the channel of
`Done()` is closed exactly from then on. -/
structure Context where
  err : GoErr
  deriving DecidableEq, Repr

/-- The standard library `fmt.Errorf(msg + "%w", err)`. -/
def fmtErrorf (msg : String) : GoErr → GoErr
  | some e => some (.wrapf msg e)
  | none => some (.leaf (msg ++ "%!w(<nil>)"))

variable {R E : Type}

/-- `Promise.Future`: the pointer conversion `(*Future[R])(p)`. -/
def Promise.Future (p : Ptr) : Ptr := p

/-- `Promise.close`, called on a non-nil receiver: swap `&closedChan` into
`done`, and close the channel that was there before, if any. -/
def Promise.close (w : World R E) : Outcome Unit (World R E) :=
  let old := w.promise.done
  let w1 : World R E := { w with promise := { w.promise with done := some Chan.closedChan } }
  match old with
  | none => .returned () w1
  | some c =>
    match closeChan w1.chans c with
    | .returned _ chans => .returned () { w1 with chans := chans }
    | .panicked why chans => .panicked why { w1 with chans := chans }
    | .blocked chans => .blocked { w1 with chans := chans }

/-- `Promise.Resolve`. -/
def Promise.Resolve (p : Ptr) (value : R) (w : World R E) : Outcome Unit (World R E) :=
  match p with
  | .nil => .returned () w
  | .obj => Promise.close { w with promise := { w.promise with value := value } }

/-- `Promise.Reject`. -/
def Promise.Reject (p : Ptr) (err : GoErr) (w : World R E) : Outcome Unit (World R E) :=
  match p with
  | .nil => .returned () w
  | .obj => Promise.close { w with promise := { w.promise with err := err } }

/-- `Promise.Do`: run `fn`, assign both results, close.  A panic of `fn` leaves
`Do` before the assignment. -/
def Promise.Do (p : Ptr) (fn : Func R E) (w : World R E) : Outcome Unit (World R E) :=
  match p with
  | .nil => .returned () w
  | .obj =>
    match fn w.env with
    | (.returns value err, env) =>
      Promise.close { w with env := env, promise := { w.promise with value := value, err := err } }
    | (.panics msg, env) => .panicked (.raised msg) { w with env := env }

/-- Modelled from the spec: the method `Closed()` that `future.go` calls on the
`done` field is not among the sources.  "Non-blocking; true iff the underlying slot has
been written", with no allocation: the pointer is loaded, and the channel it
points to, if any, is polled.  `Promise.String` of `promise.go` spells the same
test out (`done != nil`, then a `select` with a `default`). -/
def doneClosed (w : World R E) : Bool :=
  match w.promise.done with
  | none => false
  | some c => chanClosed w.chans c

/-- Modelled from the spec: the method `Done()` that `future.go` calls on the
`done` field is not among the sources.  "First call lazily allocates a private
not-yet-signaled handle and publishes it"; "if already completed, returns the
shared immutable already-signaled handle directly", and a handle that was
published before is returned again. -/
def doneDone (w : World R E) : Chan × World R E :=
  match w.promise.done with
  | some c => (c, w)
  | none =>
    let c := Chan.made w.chans.length
    (c, { w with chans := w.chans ++ [false], promise := { w.promise with done := some c } })

/-- `Future.Try`. -/
def Future.Try [Inhabited R] (f : Ptr) (w : World R E) : Outcome (R × GoErr) (World R E) :=
  match f with
  | .nil => .returned (default, ErrNotReady) w
  | .obj =>
    if !doneClosed w then .returned (default, ErrNotReady) w
    else .returned (w.promise.value, w.promise.err) w

/-- `Future.Done`: the nil channel (`none`) for a nil receiver. -/
def Future.Done (f : Ptr) (w : World R E) : Outcome (Option Chan) (World R E) :=
  match f with
  | .nil => .returned none w
  | .obj => .returned (some (doneDone w).1) (doneDone w).2

/-- The first case of the `select` of `Await`, `return f.value, f.err`: the
fields are read through `f`. -/
def awaitResult (f : Ptr) (w : World R E) : Outcome (R × GoErr) (World R E) :=
  match f with
  | .nil => .panicked .nilDereference w
  | .obj => .returned (w.promise.value, w.promise.err) w

/-- `Future.Await`.  The `select` evaluates `f.Done()` and `ctx.Done()` once. A
receive from the nil channel never proceeds, a receive from a channel proceeds
when it is closed.  With one case ready that case runs; with both ready Go
picks one of them pseudo-randomly, here by the parity of `pick`; with none
ready the goroutine is parked. -/
def Future.Await [Inhabited R] (f : Ptr) (ctx : Context) (pick : Nat) (w : World R E) :
    Outcome (R × GoErr) (World R E) :=
  match Future.Done f w with
  | .panicked why s => .panicked why s
  | .blocked s => .blocked s
  | .returned ch s =>
    let futureReady := match ch with
      | none => false
      | some c => chanClosed s.chans c
    let ctxReady := ctx.err.isSome
    let cancelled : Outcome (R × GoErr) (World R E) :=
      .returned (default, fmtErrorf "future await: " ctx.err) s
    match futureReady, ctxReady with
    | true, false => awaitResult f s
    | false, true => cancelled
    | true, true => if pick % 2 = 0 then awaitResult f s else cancelled
    | false, false => .blocked s

/-! ## States and call sequences the properties are stated over -/

/-- The zero value `Promise[R]{}`. -/
def Promise.zero [Inhabited R] : Promise R :=
  { done := none, value := default, err := none }

/-- A world with a fresh promise: no channel has been made. -/
def World.fresh [Inhabited R] (env : E) : World R E :=
  { chans := [], promise := Promise.zero, env := env }

/-- A pending promise: nothing has been stored (the fields are unexported, so
`value` and `err` are still zero), and `done` is nil (no wait handle yet) or
points to the open channel that `Done` made. -/
def Pending [Inhabited R] (w : World R E) : Prop :=
  w.promise.value = default ∧ w.promise.err = none ∧
    match w.promise.done with
    | none => True
    | some .closedChan => False
    | some (.made id) => id < w.chans.length ∧ w.chans.getD id false = false

/-- The outcomes of `n` consecutive calls of `Try`, each on the state the one
before left. -/
def tryTimes [Inhabited R] (f : Ptr) : Nat → World R E → List (Outcome (R × GoErr) (World R E))
  | 0, _ => []
  | n + 1, w => Future.Try f w :: tryTimes f n (Future.Try f w).state

/-- A call of one of the three resolving operations. -/
inductive WriteCall (R E : Type) where
  | Resolve (value : R)
  | Reject (err : GoErr)
  | Do (fn : Func R E)

/-- Make the call on `p`. -/
def WriteCall.run (p : Ptr) : WriteCall R E → World R E → Outcome Unit (World R E)
  | .Resolve value, w => Promise.Resolve p value w
  | .Reject err, w => Promise.Reject p err w
  | .Do fn, w => Promise.Do p fn w

/-- The outcomes of a sequence of resolving calls, each made on the state the
one before left, a panic being recovered by the caller. -/
def runWrites (p : Ptr) : List (WriteCall R E) → World R E → List (Outcome Unit (World R E))
  | [], _ => []
  | c :: cs, w => c.run p w :: runWrites p cs (c.run p w).state

/-- The states a sequential program can bring a fresh promise to: it starts
from the zero value and calls the methods of `Promise` and `Future` on it,
recovering from panics. -/
inductive Reachable [Inhabited R] : World R E → Prop where
  | fresh (env : E) : Reachable (World.fresh env)
  | write {w : World R E} (c : WriteCall R E) : Reachable w → Reachable (c.run .obj w).state
  | Try {w : World R E} : Reachable w → Reachable (Future.Try .obj w).state
  | Done {w : World R E} : Reachable w → Reachable (Future.Done .obj w).state
  | Await {w : World R E} (ctx : Context) (pick : Nat) :
      Reachable w → Reachable (Future.Await .obj ctx pick w).state

/-- The `errTest` of `future_test.go`. -/
def errTest : GoErr := some (.leaf "test error")

/-- The standard library `context.Canceled`. -/
def contextCanceled : GoErr := some (.leaf "context canceled")

/-- A context that was cancelled before the call, as in `TestCancellation`. -/
def cancelledContext : Context := { err := contextCanceled }

/-! ## Display strings -/

/-- The verb `%v` of the standard library package `fmt` for a value of the
result type. -/
class FmtV (R : Type) where
  verbV : R → String

/-- `%v` of an `int`, for a natural number. -/
instance instFmtVNat : FmtV Nat := ⟨fun n => toString n⟩

/-- `%v` of an `int`. -/
instance instFmtVInt : FmtV Int := ⟨fun n => toString n⟩

/-- `%v` of an `error`: `<nil>` for the nil error, else the text of `Error()`. -/
def verbVError : GoErr → String
  | none => "<nil>"
  | some e => e.Error

/-- `Promise.String`: the pointer is loaded, and the channel it points to, if
any, is polled by a `select` with a `default`. -/
def Promise.String [FmtV R] (p : Ptr) (w : World R E) : Outcome String (World R E) :=
  match p with
  | .nil => .returned "Promise <nil>" w
  | .obj =>
    match w.promise.done with
    | some c =>
      if chanClosed w.chans c then
        .returned ("Promise resolved: " ++ FmtV.verbV w.promise.value ++ ", "
          ++ verbVError w.promise.err) w
      else .returned "Promise pending" w
    | none => .returned "Promise pending" w

/-- `Future.String`. -/
def Future.String [FmtV R] (f : Ptr) (w : World R E) : Outcome String (World R E) :=
  match f with
  | .nil => .returned "Future <nil>" w
  | .obj =>
    if !doneClosed w then .returned "Future pending" w
    else .returned ("Future resolved: " ++ FmtV.verbV w.promise.value ++ ", "
      ++ verbVError w.promise.err) w

/-! ## Sequences of calls on one promise -/

/-- What a call hands back to its caller. -/
inductive Answer (R : Type) where
  | unit
  | pair (value : R) (err : GoErr)
  | handle (ch : Option Chan)
  | text (s : String)
  deriving DecidableEq, Repr

/-- Change the result of an outcome. -/
def Outcome.mapResult {α β σ : Type} (f : α → β) : Outcome α σ → Outcome β σ
  | .returned a s => .returned (f a) s
  | .panicked why s => .panicked why s
  | .blocked s => .blocked s

/-- A call of one of the methods of `Promise` and `Future`. -/
inductive Call (R E : Type) where
  | write (c : WriteCall R E)
  | Try
  | Done
  | Await (ctx : Context) (pick : Nat)
  | PromiseString
  | FutureString

/-- Whether the call is one of the three resolving operations. -/
def Call.isWrite : Call R E → Bool
  | .write _ => true
  | _ => false

/-- Make the call on the promise of the world. -/
def Call.exec [Inhabited R] [FmtV R] : Call R E → World R E → Outcome (Answer R) (World R E)
  | .write c, w => (c.run .obj w).mapResult (fun _ => Answer.unit)
  | .Try, w => (Future.Try (Promise.Future .obj) w).mapResult (fun r => Answer.pair r.1 r.2)
  | .Done, w => (Future.Done (Promise.Future .obj) w).mapResult Answer.handle
  | .Await ctx pick, w =>
    (Future.Await (Promise.Future .obj) ctx pick w).mapResult (fun r => Answer.pair r.1 r.2)
  | .PromiseString, w => (Promise.String .obj w).mapResult Answer.text
  | .FutureString, w => (Future.String (Promise.Future .obj) w).mapResult Answer.text

/-- The state after a sequence of calls, each made on the state the one before
left; a panic is recovered by the caller, and an `Await` that parks is left
behind by the rest of the program. -/
def runCalls [Inhabited R] [FmtV R] : List (Call R E) → World R E → World R E
  | [], w => w
  | c :: cs, w => runCalls cs (c.exec w).state

/-- The calls of a sequence with their outcomes, in order. -/
def trace [Inhabited R] [FmtV R] :
    List (Call R E) → World R E → List (Call R E × Outcome (Answer R) (World R E))
  | [], _ => []
  | c :: cs, w => (c, c.exec w) :: trace cs (c.exec w).state

/-- Whether an entry of a trace is a resolving call that returned. -/
def returnedWrite : Call R E × Outcome (Answer R) (World R E) → Bool
  | (.write _, .returned _ _) => true
  | _ => false

/-- The pairs that the `Try` calls of a trace returned, in order. -/
def tryAnswers : List (Call R E × Outcome (Answer R) (World R E)) → List (R × GoErr)
  | [] => []
  | (.Try, .returned (.pair v e) _) :: rest => (v, e) :: tryAnswers rest
  | _ :: rest => tryAnswers rest

/-- The heap of channels after `close`: the channel that `done` pointed to, if
it was made by `Done`, is closed; no channel is added. -/
def heapAfterClose (w : World R E) : List Bool :=
  match w.promise.done with
  | some (.made id) => w.chans.set id true
  | _ => w.chans

/-- How a wait handle `h` that `Done` returned for a pending promise stands to
a later state: it is still the channel of `done` and open, or `closedChan` has
been installed and `h` is closed. -/
def HandleInv (h : Chan) (st : World R E) : Prop :=
  (st.promise.done = some h ∧ chanClosed st.chans h = false ∧
    ∃ id, h = .made id ∧ id < st.chans.length) ∨
  (st.promise.done = some .closedChan ∧ chanClosed st.chans h = true)

/-! ## Goroutines: one resolving call beside any number of `Await` calls

The calls are cut into their atomic steps: a store to a field, an operation
on the atomic pointer `done`, making, closing and receiving from a channel.  A
schedule picks, step by step, the goroutine that moves next.  The `value` and
`err` fields are read by an awaiter only after its receive from the channel,
and stored by the writer only before its `Swap`, so the interleavings of these
steps are the executions of the program. -/

/-- Where the goroutine of a resolving call stands: nothing done yet; (`Do`
only) `fn` has returned its pair; the fields are stored; `done.Swap` has
returned the old pointer; returned; panicked. -/
inductive WriterPc (R : Type) where
  | start
  | ran (value : R) (err : GoErr)
  | stored
  | swapped (old : Option Chan)
  | finished
  | panicked (why : Panic)
  deriving DecidableEq, Repr

/-- Where a goroutine in `Await(ctx)`, with a context that is never done, stands.
Modelled from the spec: the steps `alloc`, `cas` and `reload` are those of the
`Done()` of the `done` field, which is not among the sources: "lazily allocates
a private not-yet-signaled handle and publishes it via an atomic, race-free
installation (if a concurrent caller installs first, the late caller adopts the
winner's handle)".  `start` is before the load of `done`, `parked ch` is inside
the `select` with the handle `ch`, `woken` is after the receive and before
`return f.value, f.err`. -/
inductive AwaiterPc (R : Type) where
  | start
  | alloc
  | cas (c : Chan)
  | reload
  | parked (ch : Chan)
  | woken
  | returned (value : R) (err : GoErr)
  | panicked (why : Panic)
  deriving DecidableEq, Repr

/-- A resolving call and the `Await` calls running beside it on one promise. -/
structure Conc (R E : Type) where
  world : World R E
  call : WriteCall R E
  writer : WriterPc R
  awaiters : List (AwaiterPc R)

/-- The next step of the resolving call: `Resolve` and `Reject` store their
argument; `Do` runs `fn` and then stores the pair; then `close` swaps
`&closedChan` into `done` and closes the old channel, if any. -/
def Conc.writerStep (cfg : Conc R E) : Option (Conc R E) :=
  match cfg.writer with
  | .start =>
    match cfg.call with
    | .Resolve value =>
      some { cfg with
        world := { cfg.world with promise := { cfg.world.promise with value := value } },
        writer := .stored }
    | .Reject err =>
      some { cfg with
        world := { cfg.world with promise := { cfg.world.promise with err := err } },
        writer := .stored }
    | .Do fn =>
      match fn cfg.world.env with
      | (.returns value err, env) =>
        some { cfg with world := { cfg.world with env := env }, writer := .ran value err }
      | (.panics msg, env) =>
        some { cfg with world := { cfg.world with env := env }, writer := .panicked (.raised msg) }
  | .ran value err =>
    some { cfg with
      world := { cfg.world with promise := { cfg.world.promise with value := value, err := err } },
      writer := .stored }
  | .stored =>
    some { cfg with
      world := { cfg.world with promise := { cfg.world.promise with done := some .closedChan } },
      writer := .swapped cfg.world.promise.done }
  | .swapped none => some { cfg with writer := .finished }
  | .swapped (some c) =>
    match closeChan cfg.world.chans c with
    | .returned _ chans =>
      some { cfg with world := { cfg.world with chans := chans }, writer := .finished }
    | .panicked why chans =>
      some { cfg with world := { cfg.world with chans := chans }, writer := .panicked why }
    | .blocked _ => none
  | .finished => none
  | .panicked _ => none

/-- Move awaiter `i` to `pc`. -/
def Conc.setAwaiter (cfg : Conc R E) (i : Nat) (pc : AwaiterPc R) : Conc R E :=
  { cfg with awaiters := cfg.awaiters.set i pc }

/-- The next step of awaiter `i`; `none` when it has returned, or is parked on
a channel that is not closed. -/
def Conc.awaiterStep (i : Nat) (cfg : Conc R E) : Option (Conc R E) :=
  match cfg.awaiters[i]? with
  | none => none
  | some .start =>
    match cfg.world.promise.done with
    | some c => some (cfg.setAwaiter i (.parked c))
    | none => some (cfg.setAwaiter i .alloc)
  | some .alloc =>
    some { cfg.setAwaiter i (.cas (.made cfg.world.chans.length)) with
      world := { cfg.world with chans := cfg.world.chans ++ [false] } }
  | some (.cas c) =>
    match cfg.world.promise.done with
    | none =>
      some { cfg.setAwaiter i (.parked c) with
        world := { cfg.world with promise := { cfg.world.promise with done := some c } } }
    | some _ => some (cfg.setAwaiter i .reload)
  | some .reload =>
    match cfg.world.promise.done with
    | some c => some (cfg.setAwaiter i (.parked c))
    | none => some (cfg.setAwaiter i (.panicked .nilDereference))
  | some (.parked ch) =>
    if chanClosed cfg.world.chans ch then some (cfg.setAwaiter i .woken) else none
  | some .woken =>
    some (cfg.setAwaiter i (.returned cfg.world.promise.value cfg.world.promise.err))
  | some (.returned _ _) => none
  | some (.panicked _) => none

/-- One step of goroutine `tid`: 0 is the resolving call, `i + 1` is awaiter
`i`. -/
def Conc.step (tid : Nat) (cfg : Conc R E) : Option (Conc R E) :=
  match tid with
  | 0 => cfg.writerStep
  | i + 1 => cfg.awaiterStep i

/-- Run a schedule; a goroutine that cannot move when picked is passed over. -/
def Conc.run : List Nat → Conc R E → Conc R E
  | [], cfg => cfg
  | tid :: rest, cfg => Conc.run rest ((cfg.step tid).getD cfg)

/-- The number of steps that a schedule really makes. -/
def Conc.moves : List Nat → Conc R E → Nat
  | [], _ => 0
  | tid :: rest, cfg =>
    match cfg.step tid with
    | some cfg' => Conc.moves rest cfg' + 1
    | none => Conc.moves rest cfg

/-- A fresh promise, the goroutine of a resolving call that has not started,
and `k` goroutines about to call `Await`. -/
def Conc.init [Inhabited R] (call : WriteCall R E) (k : Nat) (env : E) : Conc R E :=
  { world := World.fresh env, call := call, writer := .start,
    awaiters := List.replicate k .start }

/-- `NewAsync`: `p := Promise[R]{}; go p.Do(fn); return p.Future()`.  The
future is returned together with the program state: the fresh promise and the
new goroutine, which has not run yet; `k` is the number of goroutines that are
going to call `Await` on the future. -/
def NewAsync [Inhabited R] (fn : Func R E) (k : Nat) (env : E) : Ptr × Conc R E :=
  (Promise.Future .obj, Conc.init (.Do fn) k env)

/-- Whether the resolving call has swapped `&closedChan` in. -/
def WriterPc.completed : WriterPc R → Bool
  | .swapped _ => true
  | .finished => true
  | _ => false

/-- An upper bound on the steps a resolving call still makes. -/
def WriterPc.fuel : WriterPc R → Nat
  | .start => 4
  | .ran _ _ => 3
  | .stored => 2
  | .swapped _ => 1
  | .finished => 0
  | .panicked _ => 0

/-- An upper bound on the steps an awaiter still makes. -/
def AwaiterPc.fuel : AwaiterPc R → Nat
  | .start => 6
  | .alloc => 5
  | .cas _ => 4
  | .reload => 3
  | .parked _ => 2
  | .woken => 1
  | .returned _ _ => 0
  | .panicked _ => 0

/-- An upper bound on the steps all goroutines together still make. -/
def Conc.fuel (cfg : Conc R E) : Nat :=
  cfg.writer.fuel + (cfg.awaiters.map AwaiterPc.fuel).sum

/-- The pair that a resolving call starting on a fresh promise stores, if it
does not panic. -/
def WriteCall.target [Inhabited R] (env : E) : WriteCall R E → Option (R × GoErr)
  | .Resolve value => some (value, none)
  | .Reject err => some (default, err)
  | .Do fn =>
    match (fn env).1 with
    | .returns value err => some (value, err)
    | .panics _ => none

/-- The caller's state after the resolving call has run its `fn`, if any. -/
def WriteCall.envAfter (env : E) : WriteCall R E → E
  | .Do fn => (fn env).2
  | _ => env

/-- Every channel made so far is open. -/
def AllOpen (w : World R E) : Prop :=
  ∀ id, w.chans.getD id false = false

/-- The promise before the resolving call has swapped: `closedChan` is not
installed, every channel is open, and `done` points into the heap. -/
def PreSwap (w : World R E) : Prop :=
  w.promise.done ≠ some .closedChan ∧ AllOpen w ∧
    ∀ id, w.promise.done = some (.made id) → id < w.chans.length

/-- What holds of the promise at each point of a resolving call that started on
a fresh promise with caller state `env0` and stores `(tv, te)`. -/
def WriterOK [Inhabited R] (tv : R) (te : GoErr) (env0 : E) (call : WriteCall R E)
    (w : World R E) : WriterPc R → Prop
  | .start =>
    w.promise.value = default ∧ w.promise.err = none ∧ w.env = env0 ∧ PreSwap w
  | .ran value err =>
    value = tv ∧ err = te ∧ w.env = call.envAfter env0 ∧ PreSwap w
  | .stored =>
    w.promise.value = tv ∧ w.promise.err = te ∧ w.env = call.envAfter env0 ∧ PreSwap w
  | .swapped old =>
    w.promise.value = tv ∧ w.promise.err = te ∧ w.env = call.envAfter env0 ∧
      w.promise.done = some .closedChan ∧ AllOpen w ∧
      (old = none ∨ ∃ id, old = some (.made id) ∧ id < w.chans.length)
  | .finished =>
    w.promise.value = tv ∧ w.promise.err = te ∧ w.env = call.envAfter env0 ∧
      w.promise.done = some .closedChan
  | .panicked _ => False

/-- What holds of an awaiter at each point of `Await`, given where the resolving
call stands. -/
def AwaiterOK (tv : R) (te : GoErr) (w : World R E) (wr : WriterPc R) : AwaiterPc R → Prop
  | .start => True
  | .alloc => True
  | .cas c => ∃ id, c = .made id ∧ id < w.chans.length
  | .reload => w.promise.done ≠ none
  | .parked .closedChan => wr.completed = true
  | .parked (.made id) =>
    id < w.chans.length ∧
      match wr with
      | .swapped old => old = some (.made id)
      | .finished => w.chans.getD id false = true
      | .panicked _ => False
      | _ => w.promise.done = some (.made id)
  | .woken => wr.completed = true
  | .returned value err => value = tv ∧ err = te
  | .panicked _ => False

/-- The invariant of the goroutines of one resolving call, which stores
`(tv, te)`, and any number of `Await` calls. -/
structure Inv [Inhabited R] (tv : R) (te : GoErr) (env0 : E) (cfg : Conc R E) : Prop where
  target : cfg.call.target env0 = some (tv, te)
  writer : WriterOK tv te env0 cfg.call cfg.world cfg.writer
  awaiters : ∀ a ∈ cfg.awaiters, AwaiterOK tv te cfg.world cfg.writer a

/-- Whether the resolving call has not yet reached its `Swap`. -/
def WriterPc.preSwap : WriterPc R → Bool
  | .start => true
  | .ran _ _ => true
  | .stored => true
  | _ => false

/-! ## Group and `DoAsync` -/

/-- Modelled from the spec: the `Group` of package `group` is not among the
sources.  "A mutable counter of outstanding tasks plus a first-error capture
cell (write-once, like the Result Slot)"; `none` is the empty cell. -/
structure Group where
  outstanding : Nat
  firstErr : GoErr
  deriving DecidableEq, Repr

/-- Modelled from the spec: the commit of a task's error, which is not among
the sources.  "If the task failed, attempts to commit that error into the
group's first-error cell (a no-op if a prior error is already committed)"; a
nil error is no failure and leaves the cell empty. -/
def Group.commit (g : Group) (err : GoErr) : Group :=
  match g.firstErr with
  | none => { g with firstErr := err }
  | some _ => g

/-- Modelled from the spec: `Group.Wait`, which is not among the sources.
"Blocks the calling task until the outstanding-task counter reaches zero, then
returns whatever error (if any) was committed into the first-error cell." -/
def Group.Wait (g : Group) : Outcome GoErr Group :=
  if g.outstanding = 0 then .returned g.firstErr g else .blocked g

/-- Where the goroutine of a task stands: launched and not completed,
completed, or panicked in its function. -/
inductive TaskPc where
  | launched
  | completed
  | panicked
  deriving DecidableEq, Repr

/-- A task launched by `DoAsync`: its function, the memory of its promise with
the state its function closes over, and where its goroutine stands. -/
structure Task (R E : Type) where
  fn : Func R E
  world : World R E
  pc : TaskPc

/-- A group and the tasks launched into it. -/
structure GroupWorld (R E : Type) where
  group : Group
  tasks : List (Task R E)

/-- Modelled from the spec: `DoAsync(group, fn)`, which is not among the
sources.  "As `NewAsync`, but additionally registers the launched task with
`group` before scheduling: increments the group's outstanding-task counter";
"returns the Future": here the index of the task, whose promise is fresh. -/
def DoAsync [Inhabited R] (fn : Func R E) (env : E) (gw : GroupWorld R E) :
    Nat × GroupWorld R E :=
  (gw.tasks.length,
    { group := { gw.group with outstanding := gw.group.outstanding + 1 },
      tasks := gw.tasks ++ [{ fn := fn, world := World.fresh env, pc := .launched }] })

/-- Modelled from the spec: the completion of task `i`, which is not among the
sources: the task's `Run(fn)`, which is `Promise.Do`, and then "on task
completion (whether success or failure), decrements the counter and, if the
task failed, attempts to commit that error".  The spec speaks of the completion
as one event and gives no order between the commit and the decrement, so it is
one step here.  A task whose function panics takes its goroutine down and is
never counted as completed. -/
def GroupWorld.complete (i : Nat) (gw : GroupWorld R E) : GroupWorld R E :=
  match gw.tasks[i]? with
  | some { fn := fn, world := w, pc := .launched } =>
    match Promise.Do .obj fn w with
    | .returned _ s =>
      { group := { gw.group.commit s.promise.err with
                   outstanding := gw.group.outstanding - 1 },
        tasks := gw.tasks.set i { fn := fn, world := s, pc := .completed } }
    | .panicked _ s =>
      { gw with tasks := gw.tasks.set i { fn := fn, world := s, pc := .panicked } }
    | .blocked _ => gw
  | _ => gw

/-- The tasks complete in the order given; an index that names no launched task
is passed over. -/
def GroupWorld.completeAll : List Nat → GroupWorld R E → GroupWorld R E
  | [], gw => gw
  | i :: rest, gw => GroupWorld.completeAll rest (gw.complete i)

/-- A zero `Group` and `DoAsync` called for each function in turn, as in
`TestDoAsync`. -/
def launchAll [Inhabited R] (env : E) : List (Func R E) → GroupWorld R E → GroupWorld R E
  | [], gw => gw
  | fn :: rest, gw => launchAll env rest (DoAsync fn env gw).2

/-- The zero value of `Group` with no task launched. -/
def GroupWorld.zero : GroupWorld R E :=
  { group := { outstanding := 0, firstErr := none }, tasks := [] }

/-- The number of launched tasks that have not completed. -/
def launchedCount (tasks : List (Task R E)) : Nat :=
  (tasks.map (fun t => if t.pc = .launched then 1 else 0)).sum

/-- What holds of a task launched with caller state `env`: it is launched and
its promise is fresh, or it is completed and its promise holds the pair its
function returned. -/
def TaskOK [Inhabited R] (env : E) (t : Task R E) : Prop :=
  (t.pc = .launched ∧ t.world = World.fresh env) ∨
  (t.pc = .completed ∧ ∃ v e env', t.fn env = (.returns v e, env') ∧
    t.world = { chans := [], promise := ⟨some .closedChan, v, e⟩, env := env' })

/-- The invariant of a group whose task `j` is the only one that fails, with
the error `failure`. -/
structure GroupInv [Inhabited R] (env : E) (j : Nat) (failure : GoError)
    (gw : GroupWorld R E) : Prop where
  tasks : ∀ i t, gw.tasks[i]? = some t →
    TaskOK env t ∧ ∃ v env', t.fn env = (.returns v (if i = j then some failure else none), env')
  count : gw.group.outstanding = launchedCount gw.tasks
  cell : gw.group.firstErr =
    match gw.tasks[j]? with
    | some t => if t.pc = .completed then some failure else none
    | none => none

/-! ## Lemmas on `close` and `Try` -/

theorem doneClosed_of_pending [Inhabited R] {w : World R E} (h : Pending w) :
    doneClosed w = false := by
  obtain ⟨_, _, hd⟩ := h
  unfold doneClosed
  cases hdone : w.promise.done with
  | none => rfl
  | some c =>
    rw [hdone] at hd
    cases c with
    | closedChan => exact hd.elim
    | made id => simpa [chanClosed] using hd.2

/-- On a promise that is not completed `close` returns, and installs
`closedChan`. -/
theorem close_of_open {w : World R E} (h : doneClosed w = false) :
    ∃ chans, Promise.close w =
      .returned () { chans := chans, promise := { w.promise with done := some .closedChan },
                     env := w.env } := by
  unfold doneClosed at h
  unfold Promise.close
  cases hdone : w.promise.done with
  | none => exact ⟨w.chans, by simp⟩
  | some c =>
    rw [hdone] at h
    cases c with
    | closedChan => simp [chanClosed] at h
    | made id =>
      simp only [chanClosed] at h
      exact ⟨w.chans.set id true, by simp only [closeChan, h, Bool.false_eq_true, ↓reduceIte]⟩

/-- On a completed promise `close` panics; the swap has happened, the heap is
as before. -/
theorem close_of_closed {w : World R E} (h : doneClosed w = true) :
    Promise.close w =
      .panicked .closeOfClosedChannel
        { w with promise := { w.promise with done := some .closedChan } } := by
  unfold doneClosed at h
  unfold Promise.close
  cases hdone : w.promise.done with
  | none => rw [hdone] at h; simp at h
  | some c =>
    rw [hdone] at h
    cases c with
    | closedChan => simp [closeChan]
    | made id =>
      simp only [chanClosed] at h
      simp only [closeChan, h, ↓reduceIte]

theorem Try_of_closed [Inhabited R] {w : World R E} (h : doneClosed w = true) :
    Future.Try .obj w = .returned (w.promise.value, w.promise.err) w := by
  simp [Future.Try, h]

theorem Try_of_open [Inhabited R] {w : World R E} (h : doneClosed w = false) :
    Future.Try .obj w = .returned (default, ErrNotReady) w := by
  simp [Future.Try, h]

/-- A `Try` that returns leaves the state alone, so every repetition returns
the same. -/
theorem tryTimes_const [Inhabited R] {f : Ptr} {w : World R E} {r : R × GoErr}
    (h : Future.Try f w = .returned r w) (n : Nat) :
    tryTimes f n w = List.replicate n (.returned r w) := by
  induction n with
  | zero => rfl
  | succ k ih => simp only [tryTimes, h, Outcome.state, ih, List.replicate_succ]

/-- Obtaining the wait handle does not complete the promise. -/
theorem doneClosed_doneDone {w : World R E} (h : doneClosed w = false) :
    doneClosed (doneDone w).2 = false := by
  unfold doneClosed at h
  unfold doneDone
  cases hdone : w.promise.done with
  | none => simp [doneClosed, chanClosed]
  | some c => rw [hdone] at h; simpa [doneClosed, hdone] using h

/-- A resolving call on a completed promise panics and leaves it completed. -/
theorem run_of_closed {w : World R E} (h : doneClosed w = true) (c : WriteCall R E) :
    (c.run .obj w).faulted = true ∧ doneClosed (c.run .obj w).state = true := by
  cases c with
  | Resolve value =>
    have h1 : doneClosed { w with promise := { w.promise with value := value } } = true := h
    simp [WriteCall.run, Promise.Resolve, close_of_closed h1, Outcome.faulted, Outcome.state,
      doneClosed, chanClosed]
  | Reject err =>
    have h1 : doneClosed { w with promise := { w.promise with err := err } } = true := h
    simp [WriteCall.run, Promise.Reject, close_of_closed h1, Outcome.faulted, Outcome.state,
      doneClosed, chanClosed]
  | Do fn =>
    simp only [WriteCall.run, Promise.Do]
    rcases hfn : fn w.env with ⟨res, env⟩
    cases res with
    | returns value err =>
      have h1 : doneClosed
          { w with env := env, promise := { w.promise with value := value, err := err } }
            = true := h
      simp [close_of_closed h1, Outcome.faulted, Outcome.state, doneClosed, chanClosed]
    | panics msg =>
      simp only [Outcome.faulted, Outcome.state, true_and]
      exact h

/-- Obtaining the wait handle keeps a pending promise pending. -/
theorem Pending_doneDone [Inhabited R] {w : World R E} (h : Pending w) :
    Pending (doneDone w).2 := by
  obtain ⟨hv, he, hd⟩ := h
  unfold doneDone
  cases hdone : w.promise.done with
  | none => exact ⟨hv, he, by simp⟩
  | some c => exact ⟨hv, he, by simpa [hdone] using hd⟩

theorem GoError.Is_self (e : GoError) : e.Is e = true := by
  cases e <;> simp [GoError.Is]

/-- With a pending promise only the context's case of the `select` can be
ready: `Await` takes the wait handle and returns the wrapped `ctx.Err()`. -/
theorem Await_of_pending_cancelled [Inhabited R] {w : World R E} (h : doneClosed w = false)
    (ctx : Context) (hc : ctx.err ≠ none) (pick : Nat) :
    Future.Await .obj ctx pick w
      = .returned (default, fmtErrorf "future await: " ctx.err) (doneDone w).2 := by
  have h2 : chanClosed (doneDone w).2.chans (doneDone w).1 = false := by
    have := doneClosed_doneDone h
    unfold doneClosed at this
    unfold doneDone at this ⊢
    cases hdone : w.promise.done with
    | none => simp [chanClosed]
    | some c => simpa [hdone] using this
  obtain ⟨ce, hce⟩ := Option.ne_none_iff_exists'.mp hc
  simp [Future.Await, Future.Done, h2, hce]

/-- On a completed promise `Done` returns the channel stored in `done`, which
is closed, and changes nothing. -/
theorem doneDone_of_closed {w : World R E} (h : doneClosed w = true) :
    (doneDone w).2 = w ∧ chanClosed w.chans (doneDone w).1 = true := by
  unfold doneClosed at h
  unfold doneDone
  cases hdone : w.promise.done with
  | none => rw [hdone] at h; simp at h
  | some c => rw [hdone] at h; exact ⟨rfl, h⟩

/-- `Await` on a completed promise: the future's case is ready, the context's
case is ready when the context is done. -/
theorem Await_of_closed [Inhabited R] {w : World R E} (h : doneClosed w = true)
    (ctx : Context) (pick : Nat) :
    Future.Await .obj ctx pick w =
      if ctx.err = none ∨ pick % 2 = 0 then .returned (w.promise.value, w.promise.err) w
      else .returned (default, fmtErrorf "future await: " ctx.err) w := by
  obtain ⟨h1, h2⟩ := doneDone_of_closed h
  simp only [Future.Await, Future.Done, h1, h2, awaitResult]
  cases hce : ctx.err with
  | none => simp
  | some ce => by_cases hp : pick % 2 = 0 <;> simp [hp]

/-- `Await` leaves the state that its call of `Done` left. -/
theorem Await_state [Inhabited R] (w : World R E) (ctx : Context) (pick : Nat) :
    (Future.Await .obj ctx pick w).state = (doneDone w).2 := by
  simp only [Future.Await, Future.Done, awaitResult]
  split <;> try rfl
  split <;> rfl

/-- `Resolve` on a pending promise returns and leaves it completed with
`(v, nil)` stored. -/
theorem Resolve_of_pending [Inhabited R] {w : World R E} (hp : Pending w) (v : R) :
    ∃ s, Promise.Resolve .obj v w = .returned () s ∧ doneClosed s = true ∧
      s.promise.value = v ∧ s.promise.err = none := by
  have hopen : doneClosed { w with promise := { w.promise with value := v } } = false :=
    (doneClosed_of_pending hp : doneClosed w = false)
  obtain ⟨chans, hc⟩ := close_of_open hopen
  exact ⟨_, hc, by simp [doneClosed, chanClosed], rfl, hp.2.1⟩

/-- Whether it returns or panics, `close` leaves `closedChan` installed. -/
theorem close_state_done (w : World R E) :
    (Promise.close w).state.promise.done = some .closedChan := by
  unfold Promise.close
  cases w.promise.done with
  | none => rfl
  | some c =>
    simp only
    cases closeChan w.chans c <;> rfl

/-- A reachable promise is pending, in the sense of `Pending`, or has
`closedChan` installed: `Pending` describes every promise that a program has
not completed. -/
theorem Reachable.pending_or_completed [Inhabited R] {w : World R E} (h : Reachable w) :
    Pending w ∨ w.promise.done = some .closedChan := by
  induction h with
  | fresh env => exact Or.inl ⟨rfl, rfl, trivial⟩
  | @write w c _ ih =>
    cases c with
    | Resolve value => exact Or.inr (close_state_done _)
    | Reject err => exact Or.inr (close_state_done _)
    | Do fn =>
      simp only [WriteCall.run, Promise.Do]
      rcases hfn : fn w.env with ⟨res, env⟩
      cases res with
      | returns value err => exact Or.inr (close_state_done _)
      | panics msg => exact ih
  | @Try w _ ih =>
    have : (Future.Try .obj w).state = w := by
      simp only [Future.Try]; split <;> rfl
    rw [this]; exact ih
  | @Done w _ ih =>
    rcases ih with hp | hc
    · exact Or.inl (Pending_doneDone hp)
    · right; simp [Future.Done, Outcome.state, doneDone, hc]
  | @Await w ctx pick _ ih =>
    rw [Await_state]
    rcases ih with hp | hc
    · exact Or.inl (Pending_doneDone hp)
    · right; simp [doneDone, hc]

/-! ## The properties -/

/-- C1: on a pending promise, with or without a wait handle, `Resolve(v)`
returns, and afterwards every one of any number of repeated `Try` calls on its
future returns `(v, nil)`. -/
theorem Try_after_Resolve [Inhabited R] (w : World R E) (hp : Pending w) (v : R) (n : Nat) :
    ∃ s, Promise.Resolve .obj v w = .returned () s ∧
      tryTimes (Promise.Future .obj) n s = List.replicate n (.returned (v, none) s) := by
  obtain ⟨s, hr, hcl, hv, he⟩ := Resolve_of_pending hp v
  refine ⟨s, hr, tryTimes_const ?_ n⟩
  rw [Promise.Future, Try_of_closed hcl, hv, he]

/-- Witness of C1: a promise whose wait handle was obtained through `Done`,
resolved with 7 and tried three times. -/
theorem Try_after_Resolve_witness :
    ∃ s, Promise.Resolve .obj 7 (Future.Done .obj (World.fresh (R := Nat) ())).state
        = .returned () s ∧
      tryTimes (Promise.Future .obj) 3 s = List.replicate 3 (.returned (7, none) s) :=
  Try_after_Resolve (Future.Done .obj (World.fresh (R := Nat) ())).state
    ⟨rfl, rfl, show 0 < [false].length ∧ [false].getD 0 false = false from ⟨by decide, rfl⟩⟩ 7 3

/-- C2: on a pending promise `Reject(e)` returns, and afterwards every one of
any number of repeated `Try` calls on its future returns the zero value of `R`
and `e`. -/
theorem Try_after_Reject [Inhabited R] (w : World R E) (hp : Pending w) (e : GoErr) (n : Nat) :
    ∃ s, Promise.Reject .obj e w = .returned () s ∧
      tryTimes (Promise.Future .obj) n s = List.replicate n (.returned (default, e) s) := by
  have hopen : doneClosed { w with promise := { w.promise with err := e } } = false :=
    (doneClosed_of_pending hp : doneClosed w = false)
  obtain ⟨chans, hc⟩ := close_of_open hopen
  refine ⟨_, hc, tryTimes_const ?_ n⟩
  rw [Promise.Future, Try_of_closed (by simp [doneClosed, chanClosed])]
  simp [hp.1]

/-- Witness of C2: the rejected promise of `TestFuture_String`, tried twice. -/
theorem Try_after_Reject_witness :
    ∃ s, Promise.Reject .obj (some (.leaf "test error")) (World.fresh (R := Int) ())
        = .returned () s ∧
      tryTimes (Promise.Future .obj) 2 s
        = List.replicate 2 (.returned (default, some (.leaf "test error")) s) :=
  Try_after_Reject (World.fresh (R := Int) ()) ⟨rfl, rfl, trivial⟩ (some (.leaf "test error")) 2

/-- C3: on a completed promise every further `Resolve`, `Reject` or `Do`
panics: in any sequence of such calls, each made after the panic of the one
before was recovered, every call panics and leaves the promise completed. -/
theorem write_after_completion_panics (w : World R E) (h : doneClosed w = true)
    (calls : List (WriteCall R E)) :
    (runWrites .obj calls w).map Outcome.faulted = List.replicate calls.length true ∧
    (runWrites .obj calls w).all (fun r => doneClosed r.state) = true := by
  induction calls generalizing w with
  | nil => exact ⟨rfl, rfl⟩
  | cons c cs ih =>
    obtain ⟨hf, hs⟩ := run_of_closed h c
    obtain ⟨ih1, ih2⟩ := ih _ hs
    simp only [runWrites, List.map_cons, List.length_cons, List.replicate_succ, List.all_cons,
      hf, hs, ih1, ih2, Bool.and_self, and_self]

/-- Witness of C3: a promise whose wait handle was obtained and that was
resolved with 1; a second `Resolve`, a `Reject` and a `Do` each panic. -/
theorem write_after_completion_panics_witness :
    (runWrites .obj
        [WriteCall.Resolve 2, WriteCall.Reject errTest,
          WriteCall.Do (fun env => (.returns 5 none, env))]
        (Promise.Resolve .obj 1 (Future.Done .obj (World.fresh (R := Nat) ())).state).state
      ).map Outcome.faulted = List.replicate 3 true ∧
    (runWrites .obj
        [WriteCall.Resolve 2, WriteCall.Reject errTest,
          WriteCall.Do (fun env => (.returns 5 none, env))]
        (Promise.Resolve .obj 1 (Future.Done .obj (World.fresh (R := Nat) ())).state).state
      ).all (fun r => doneClosed r.state) = true :=
  write_after_completion_panics
    (Promise.Resolve .obj 1 (Future.Done .obj (World.fresh (R := Nat) ())).state).state rfl
    [WriteCall.Resolve 2, WriteCall.Reject errTest,
      WriteCall.Do (fun env => (.returns 5 none, env))]

/-- C4 as stated fails: after `Resolve(1)` readers get `(1, nil)`; a second
`Resolve(2)`, a `Reject(errTest)` or a `Do` of a function returning
`(5, errTest)` panics, and readers then get `(2, nil)`, `(1, errTest)` and
`(5, errTest)`, not `(1, nil)`: the call has stored its result before `close`
panics. -/
theorem faulting_write_overwrites_result_counterexample :
    Future.Try .obj (Promise.Resolve .obj 1 (World.fresh (R := Nat) ())).state
      = .returned (1, none) (Promise.Resolve .obj 1 (World.fresh (R := Nat) ())).state ∧
    Promise.Resolve .obj 2 (Promise.Resolve .obj 1 (World.fresh (R := Nat) ())).state
      = .panicked .closeOfClosedChannel
          { chans := [], promise := ⟨some .closedChan, 2, none⟩, env := () } ∧
    Future.Try .obj
      (Promise.Resolve .obj 2 (Promise.Resolve .obj 1 (World.fresh (R := Nat) ())).state).state
      = .returned (2, none) { chans := [], promise := ⟨some .closedChan, 2, none⟩, env := () } ∧
    Promise.Reject .obj errTest (Promise.Resolve .obj 1 (World.fresh (R := Nat) ())).state
      = .panicked .closeOfClosedChannel
          { chans := [], promise := ⟨some .closedChan, 1, errTest⟩, env := () } ∧
    Future.Try .obj
      (Promise.Reject .obj errTest (Promise.Resolve .obj 1 (World.fresh (R := Nat) ())).state).state
      = .returned (1, errTest) { chans := [], promise := ⟨some .closedChan, 1, errTest⟩, env := () } ∧
    Promise.Do .obj (fun env => (.returns 5 errTest, env))
        (Promise.Resolve .obj 1 (World.fresh (R := Nat) ())).state
      = .panicked .closeOfClosedChannel
          { chans := [], promise := ⟨some .closedChan, 5, errTest⟩, env := () } ∧
    Future.Try .obj
      (Promise.Do .obj (fun env => (.returns 5 errTest, env))
        (Promise.Resolve .obj 1 (World.fresh (R := Nat) ())).state).state
      = .returned (5, errTest) { chans := [], promise := ⟨some .closedChan, 5, errTest⟩, env := () } :=
  ⟨rfl, rfl, rfl, rfl, rfl, rfl, rfl⟩

/-- C4 amended: on a completed promise with stored pair `(v, e)`, which `Try`
returns, a `Resolve(v')`, a `Reject(e')` and a `Do(fn)` each raise the
double-resolution panic and leave the promise completed, with what the call
assigned before `close` stored: `Try` then returns `(v', e)` after
`Resolve(v')`, `(v, e')` after `Reject(e')`, and the pair that `fn` returned
after `Do(fn)`. -/
theorem Try_after_faulting_write [Inhabited R] (w : World R E) (h : doneClosed w = true)
    (v' : R) (e' : GoErr) (fn : Func R E) (fv : R) (fe : GoErr) (env : E)
    (hfn : fn w.env = (.returns fv fe, env)) :
    Future.Try (Promise.Future .obj) w = .returned (w.promise.value, w.promise.err) w ∧
    (∃ s, Promise.Resolve .obj v' w = .panicked .closeOfClosedChannel s ∧
      Future.Try (Promise.Future .obj) s = .returned (v', w.promise.err) s) ∧
    (∃ s, Promise.Reject .obj e' w = .panicked .closeOfClosedChannel s ∧
      Future.Try (Promise.Future .obj) s = .returned (w.promise.value, e') s) ∧
    (∃ s, Promise.Do .obj fn w = .panicked .closeOfClosedChannel s ∧
      Future.Try (Promise.Future .obj) s = .returned (fv, fe) s) := by
  have h1 : doneClosed { w with promise := { w.promise with value := v' } } = true := h
  have h2 : doneClosed { w with promise := { w.promise with err := e' } } = true := h
  have h3 : doneClosed
      { w with env := env, promise := { w.promise with value := fv, err := fe } } = true := h
  have hd : Promise.Do .obj fn w
      = Promise.close { w with env := env, promise := { w.promise with value := fv, err := fe } } := by
    simp only [Promise.Do, hfn]
  rw [close_of_closed h3] at hd
  refine ⟨Try_of_closed h, ⟨_, close_of_closed h1, ?_⟩, ⟨_, close_of_closed h2, ?_⟩,
    ⟨_, hd, ?_⟩⟩
  · rw [Promise.Future, Try_of_closed (by simp [doneClosed, chanClosed])]
  · rw [Promise.Future, Try_of_closed (by simp [doneClosed, chanClosed])]
  · rw [Promise.Future, Try_of_closed (by simp [doneClosed, chanClosed])]

/-- Witness of C4 amended: the promise of `TestTry` after `Resolve(1)`, then a
second `Resolve(2)`, a `Reject(errTest)` and a `Do` returning `(5, nil)`. -/
theorem Try_after_faulting_write_witness :
    Future.Try (Promise.Future .obj)
        (Promise.Resolve .obj 1 (Future.Done .obj (World.fresh (R := Nat) ())).state).state
      = .returned (1, none)
        (Promise.Resolve .obj 1 (Future.Done .obj (World.fresh (R := Nat) ())).state).state ∧
    (∃ s, Promise.Resolve .obj 2
          (Promise.Resolve .obj 1 (Future.Done .obj (World.fresh (R := Nat) ())).state).state
        = .panicked .closeOfClosedChannel s ∧
      Future.Try (Promise.Future .obj) s = .returned (2, none) s) ∧
    (∃ s, Promise.Reject .obj errTest
          (Promise.Resolve .obj 1 (Future.Done .obj (World.fresh (R := Nat) ())).state).state
        = .panicked .closeOfClosedChannel s ∧
      Future.Try (Promise.Future .obj) s = .returned (1, errTest) s) ∧
    (∃ s, Promise.Do .obj (fun env => (.returns 5 none, env))
          (Promise.Resolve .obj 1 (Future.Done .obj (World.fresh (R := Nat) ())).state).state
        = .panicked .closeOfClosedChannel s ∧
      Future.Try (Promise.Future .obj) s = .returned (5, none) s) :=
  Try_after_faulting_write
    (Promise.Resolve .obj 1 (Future.Done .obj (World.fresh (R := Nat) ())).state).state rfl
    2 errTest (fun env => (.returns 5 none, env)) 5 none () rfl

/-- C5: on a promise that is not completed every one of any number of repeated
`Try` calls returns the zero value of `R` and `ErrNotReady`, before and after
the wait handle is obtained through `Done`. -/
theorem Try_before_completion [Inhabited R] (w : World R E) (h : doneClosed w = false)
    (n : Nat) :
    tryTimes (Promise.Future .obj) n w = List.replicate n (.returned (default, ErrNotReady) w) ∧
    tryTimes (Promise.Future .obj) n (Future.Done .obj w).state
      = List.replicate n (.returned (default, ErrNotReady) (Future.Done .obj w).state) :=
  ⟨tryTimes_const (Try_of_open h) n, tryTimes_const (Try_of_open (doneClosed_doneDone h)) n⟩

/-- Witness of C5: the fresh promise of `TestTry`, tried twice before and twice
after `Done`. -/
theorem Try_before_completion_witness :
    tryTimes (Promise.Future .obj) 2 (World.fresh (R := Nat) ())
      = List.replicate 2 (.returned (default, ErrNotReady) (World.fresh (R := Nat) ())) ∧
    tryTimes (Promise.Future .obj) 2 (Future.Done .obj (World.fresh (R := Nat) ())).state
      = List.replicate 2
          (.returned (default, ErrNotReady) (Future.Done .obj (World.fresh (R := Nat) ())).state) :=
  Try_before_completion (World.fresh (R := Nat) ()) rfl 2

/-- C6: on a pending promise, `Await` with a context that is already done
returns the zero value of `R` and an error that wraps `ctx.Err()` and is not
`ErrNotReady` (nor wraps it, unless `ctx.Err()` does); the promise is still
pending, its `value` and `err` as before, and a later `Resolve(v)` returns
without panic, after which `Try` returns `(v, nil)`. -/
theorem Await_cancelled_on_pending [Inhabited R] (w : World R E) (hp : Pending w)
    (ctx : Context) (hc : ctx.err ≠ none) (pick : Nat) (v : R) :
    ∃ err s, Future.Await (Promise.Future .obj) ctx pick w = .returned (default, err) s ∧
      errorsIs err ctx.err = true ∧ err ≠ ErrNotReady ∧
      (errorsIs ctx.err ErrNotReady = false → errorsIs err ErrNotReady = false) ∧
      Pending s ∧ s.promise.value = w.promise.value ∧ s.promise.err = w.promise.err ∧
      s.env = w.env ∧
      ∃ s', Promise.Resolve .obj v s = .returned () s' ∧
        Future.Try (Promise.Future .obj) s' = .returned (v, none) s' := by
  have hs : Pending (doneDone w).2 := Pending_doneDone hp
  obtain ⟨s', hr, hcl, hv, he⟩ := Resolve_of_pending hs v
  refine ⟨fmtErrorf "future await: " ctx.err, (doneDone w).2,
    Await_of_pending_cancelled (doneClosed_of_pending hp) ctx hc pick, ?_, ?_, ?_, hs, ?_, ?_, ?_,
    s', hr, ?_⟩
  · obtain ⟨ce, hce⟩ := Option.ne_none_iff_exists'.mp hc
    simp [hce, fmtErrorf, errorsIs, GoError.Is, GoError.Is_self]
  · obtain ⟨ce, hce⟩ := Option.ne_none_iff_exists'.mp hc
    simp [hce, fmtErrorf, ErrNotReady]
  · obtain ⟨ce, hce⟩ := Option.ne_none_iff_exists'.mp hc
    simp [hce, fmtErrorf, ErrNotReady, errorsIs, GoError.Is]
  · unfold doneDone; cases w.promise.done <;> rfl
  · unfold doneDone; cases w.promise.done <;> rfl
  · unfold doneDone; cases w.promise.done <;> rfl
  · rw [Promise.Future, Try_of_closed hcl, hv, he]

/-- Witness of C6: `TestCancellation` on a fresh promise, then `Resolve(1)`. -/
theorem Await_cancelled_on_pending_witness :
    ∃ err s, Future.Await (Promise.Future .obj) cancelledContext 0 (World.fresh (R := Nat) ())
        = .returned (default, err) s ∧
      errorsIs err cancelledContext.err = true ∧ err ≠ ErrNotReady ∧
      (errorsIs cancelledContext.err ErrNotReady = false → errorsIs err ErrNotReady = false) ∧
      Pending s ∧ s.promise.value = (World.fresh (R := Nat) ()).promise.value ∧
      s.promise.err = (World.fresh (R := Nat) ()).promise.err ∧
      s.env = (World.fresh (R := Nat) ()).env ∧
      ∃ s', Promise.Resolve .obj 1 s = .returned () s' ∧
        Future.Try (Promise.Future .obj) s' = .returned (1, none) s' :=
  Await_cancelled_on_pending (World.fresh (R := Nat) ()) ⟨rfl, rfl, trivial⟩ cancelledContext
    (by decide) 0 1

/-- C7, the code at the failing input: the doc comment of `Await` says it
"returns the cached result", and the claim says so for every context.  After
`Resolve(7)` both cases of the `select` of an `Await` with a cancelled context
are ready, and when the context's case is picked `Await` returns the zero value
and the wrapped `context.Canceled`, not the cached `(7, nil)`. -/
theorem Await_picks_cancelled_context_counterexample :
    Future.Await (Promise.Future .obj) cancelledContext 1
        (Promise.Resolve .obj 7 (World.fresh (R := Nat) ())).state
      = .returned (0, some (.wrapf "future await: " (.leaf "context canceled")))
          (Promise.Resolve .obj 7 (World.fresh (R := Nat) ())).state ∧
    Future.Await (Promise.Future .obj) cancelledContext 1
        (Promise.Resolve .obj 7 (World.fresh (R := Nat) ())).state
      ≠ .returned (7, none) (Promise.Resolve .obj 7 (World.fresh (R := Nat) ())).state :=
  ⟨rfl, by decide⟩

/-- What `Await` does after `Resolve(v)` on a pending promise: it never parks
and leaves the state alone; with a context that is not done it returns
`(v, nil)`; with a context that is done both cases of the `select` are ready,
and it returns `(v, nil)` when the future's case is picked and the zero value
with the wrapped `ctx.Err()` when the context's case is picked. -/
theorem Await_after_Resolve [Inhabited R] (w : World R E) (hp : Pending w) (v : R)
    (ctx : Context) (pick : Nat) :
    ∃ s, Promise.Resolve .obj v w = .returned () s ∧
      Future.Await (Promise.Future .obj) ctx pick s =
        if ctx.err = none ∨ pick % 2 = 0 then .returned (v, none) s
        else .returned (default, fmtErrorf "future await: " ctx.err) s := by
  obtain ⟨s, hr, hcl, hv, he⟩ := Resolve_of_pending hp v
  refine ⟨s, hr, ?_⟩
  rw [Promise.Future, Await_of_closed hcl, hv, he]

/-- An instance of the lemma before: the promise of `TestAsyncValue`, resolved
with 1 and awaited with a context that is not done. -/
theorem Await_after_Resolve_witness :
    ∃ s, Promise.Resolve .obj 1 (World.fresh (R := Nat) ()) = .returned () s ∧
      Future.Await (Promise.Future .obj) { err := none } 5 s =
        if ({ err := none } : Context).err = none ∨ 5 % 2 = 0 then .returned (1, none) s
        else .returned (default, fmtErrorf "future await: " ({ err := none } : Context).err) s :=
  Await_after_Resolve (World.fresh (R := Nat) ()) ⟨rfl, rfl, trivial⟩ 1 { err := none } 5

/-- C8: on a promise that is not completed, `Do(fn)` with an `fn` that returns
`(v, e)` runs `fn` once on the caller's state (the state `Do` leaves is the one
that one run of `fn` produced), returns without panic, and leaves the promise
completed with every `Try` returning exactly `(v, e)`. -/
theorem Do_completes_with_result [Inhabited R] (w : World R E) (h : doneClosed w = false)
    (fn : Func R E) (v : R) (e : GoErr) (env : E) (hfn : fn w.env = (.returns v e, env))
    (n : Nat) :
    ∃ s, Promise.Do .obj fn w = .returned () s ∧ s.env = env ∧ doneClosed s = true ∧
      tryTimes (Promise.Future .obj) n s = List.replicate n (.returned (v, e) s) := by
  have hopen : doneClosed
      { w with env := env, promise := { w.promise with value := v, err := e } } = false := h
  obtain ⟨chans, hc⟩ := close_of_open hopen
  have hd : Promise.Do .obj fn w
      = Promise.close { w with env := env, promise := { w.promise with value := v, err := e } } := by
    simp only [Promise.Do, hfn]
  rw [hc] at hd
  refine ⟨_, hd, rfl, by simp [doneClosed, chanClosed], tryTimes_const ?_ n⟩
  rw [Promise.Future, Try_of_closed (by simp [doneClosed, chanClosed])]

/-- Witness of C8: the failing function of `TestAsyncError`, made to count its
runs in the caller's state: after `Do` the count is 1 and `Try` returns
`(0, errTest)`. -/
theorem Do_completes_with_result_witness :
    ∃ s, Promise.Do .obj (fun calls : Nat => (FnResult.returns (0 : Int) errTest, calls + 1))
        (World.fresh 0) = .returned () s ∧
      s.env = 1 ∧ doneClosed s = true ∧
      tryTimes (Promise.Future .obj) 2 s = List.replicate 2 (.returned (0, errTest) s) :=
  Do_completes_with_result (World.fresh 0) rfl
    (fun calls : Nat => (FnResult.returns (0 : Int) errTest, calls + 1)) 0 errTest 1 rfl 2

/-- C9: on a nil `*Promise`, `Resolve`, `Reject` and `Do` return without panic
and leave the whole state, the caller's state included, as it was, for every
value, error and function: `Do` does not run `fn`, whatever `fn` would do. -/
theorem nil_Promise_is_noop (w : World R E) (v : R) (e : GoErr) (fn : Func R E) :
    Promise.Resolve .nil v w = .returned () w ∧
    Promise.Reject .nil e w = .returned () w ∧
    Promise.Do .nil fn w = .returned () w :=
  ⟨rfl, rfl, rfl⟩

/-- C10: on a nil `*Future`, also the one `Future()` gives for a nil
`*Promise`, `Try` returns the zero value of `R` and `ErrNotReady`, `Done`
returns the nil channel, and `Await` parks while the context is not done and
returns the zero value with the wrapped `ctx.Err()` once it is; none of them
panics or changes the state. -/
theorem nil_Future_is_safe [Inhabited R] (w : World R E) (ctx : Context) (pick : Nat) :
    Promise.Future .nil = .nil ∧
    Future.Try (Promise.Future .nil) w = .returned (default, ErrNotReady) w ∧
    Future.Done (Promise.Future .nil) w = .returned none w ∧
    Future.Await (Promise.Future .nil) ctx pick w =
      (if ctx.err = none then .blocked w
       else .returned (default, fmtErrorf "future await: " ctx.err) w) := by
  refine ⟨rfl, rfl, rfl, ?_⟩
  cases hce : ctx.err <;> simp [Future.Await, Future.Done, Promise.Future, hce]

/-! ## Lemmas on call sequences and display strings -/

theorem Try_state [Inhabited R] (f : Ptr) (w : World R E) : (Future.Try f w).state = w := by
  cases f with
  | nil => rfl
  | obj => simp only [Future.Try]; split <;> rfl

theorem Try_returns [Inhabited R] (f : Ptr) (w : World R E) :
    ∃ r, Future.Try f w = .returned r w := by
  cases f with
  | nil => exact ⟨_, rfl⟩
  | obj => simp only [Future.Try]; split <;> exact ⟨_, rfl⟩

theorem PromiseString_state [FmtV R] (p : Ptr) (w : World R E) :
    (Promise.String p w).state = w := by
  cases p with
  | nil => rfl
  | obj =>
    simp only [Promise.String]
    split
    · split <;> rfl
    · rfl

theorem FutureString_state [FmtV R] (f : Ptr) (w : World R E) :
    (Future.String f w).state = w := by
  cases f with
  | nil => rfl
  | obj => simp only [Future.String]; split <;> rfl

theorem mapResult_state {α β σ : Type} (f : α → β) (o : Outcome α σ) :
    (o.mapResult f).state = o.state := by
  cases o <;> rfl

/-- `Promise.String` tests what `Closed()` tests. -/
theorem PromiseString_eq [FmtV R] (w : World R E) :
    Promise.String .obj w =
      if doneClosed w then
        .returned ("Promise resolved: " ++ FmtV.verbV w.promise.value ++ ", "
          ++ verbVError w.promise.err) w
      else .returned "Promise pending" w := by
  unfold Promise.String doneClosed
  cases w.promise.done with
  | none => simp
  | some c => simp only

/-- The state a call leaves: a read leaves the state alone or, for `Done` and
`Await`, takes the wait handle. -/
theorem exec_state [Inhabited R] [FmtV R] (c : Call R E) (w : World R E) :
    (c.exec w).state =
      match c with
      | .write wc => (wc.run .obj w).state
      | .Try => w
      | .Done => (doneDone w).2
      | .Await _ _ => (doneDone w).2
      | .PromiseString => w
      | .FutureString => w := by
  cases c with
  | write wc => simp [Call.exec, mapResult_state]
  | Try => simp [Call.exec, mapResult_state, Try_state]
  | Done => simp only [Call.exec, mapResult_state]; rfl
  | Await ctx pick => simp [Call.exec, mapResult_state, Promise.Future, Await_state]
  | PromiseString => simp [Call.exec, mapResult_state, PromiseString_state]
  | FutureString => simp [Call.exec, mapResult_state, FutureString_state]

theorem set_true_of_getD {l : List Bool} {i : Nat} (h : l.getD i false = true) :
    l.set i true = l := by
  induction l generalizing i with
  | nil => rfl
  | cons a t ih =>
    cases i with
    | zero => simp at h; simp [h]
    | succ k => simp at h; simp [List.set, ih (by simpa using h)]

theorem getD_set_true {l : List Bool} {i j : Nat} (h : l.getD j false = true) :
    (l.set i true).getD j false = true := by
  induction l generalizing i j with
  | nil => simp at h
  | cons a t ih =>
    cases i with
    | zero => cases j with
      | zero => simp
      | succ k => simpa using h
    | succ i' => cases j with
      | zero => simpa using h
      | succ k =>
        have := ih (i := i') (j := k) (by simpa using h)
        simpa using this

theorem getD_set_self {l : List Bool} {i : Nat} (h : i < l.length) :
    (l.set i true).getD i false = true := by
  simp [List.getD_eq_getElem?_getD, List.getElem?_set, h]

theorem getD_append_false {l : List Bool} {j : Nat} (h : l.getD j false = true) :
    (l ++ [false]).getD j false = true := by
  induction l generalizing j with
  | nil => simp at h
  | cons a t ih =>
    cases j with
    | zero => simpa using h
    | succ k =>
      have := ih (j := k) (by simpa using h)
      simpa using this

/-- Whether it returns or panics, `close` leaves the heap with at most the
channel of `done` closed. -/
theorem close_state_chans (w : World R E) :
    (Promise.close w).state.chans = heapAfterClose w := by
  unfold Promise.close heapAfterClose
  cases hdone : w.promise.done with
  | none => rfl
  | some c =>
    cases c with
    | closedChan => rfl
    | made id =>
      simp only [closeChan]
      by_cases hcl : w.chans.getD id false = true
      · simp only [hcl, ↓reduceIte, Outcome.state]
        exact (set_true_of_getD hcl).symm
      · simp only [hcl, Bool.false_eq_true, ↓reduceIte, Outcome.state]

theorem close_state_value (w : World R E) :
    (Promise.close w).state.promise.value = w.promise.value ∧
    (Promise.close w).state.promise.err = w.promise.err ∧
    (Promise.close w).state.env = w.env := by
  unfold Promise.close
  cases w.promise.done with
  | none => exact ⟨rfl, rfl, rfl⟩
  | some c =>
    simp only
    cases closeChan w.chans c <;> exact ⟨rfl, rfl, rfl⟩

/-- A resolving call ends in `close`, or is a `Do` whose `fn` panicked and
that left the promise and the heap alone. -/
theorem run_state_cases (c : WriteCall R E) (w : World R E) :
    ((c.run .obj w).state.promise.done = some .closedChan ∧
      (c.run .obj w).state.chans = heapAfterClose w) ∨
    ((c.run .obj w).state.promise = w.promise ∧ (c.run .obj w).state.chans = w.chans ∧
      (c.run .obj w).faulted = true) := by
  cases c with
  | Resolve value =>
    exact Or.inl ⟨close_state_done _, close_state_chans _⟩
  | Reject err =>
    exact Or.inl ⟨close_state_done _, close_state_chans _⟩
  | Do fn =>
    simp only [WriteCall.run, Promise.Do]
    rcases hfn : fn w.env with ⟨res, env⟩
    cases res with
    | returns value err => exact Or.inl ⟨close_state_done _, close_state_chans _⟩
    | panics msg => exact Or.inr ⟨rfl, rfl, rfl⟩

theorem chanClosed_heapAfterClose {w : World R E} {ch : Chan}
    (h : chanClosed w.chans ch = true) : chanClosed (heapAfterClose w) ch = true := by
  unfold heapAfterClose
  cases ch with
  | closedChan => rfl
  | made j =>
    simp only [chanClosed] at h ⊢
    split
    · exact getD_set_true h
    · exact h

theorem chanClosed_doneDone {w : World R E} {ch : Chan}
    (h : chanClosed w.chans ch = true) : chanClosed (doneDone w).2.chans ch = true := by
  unfold doneDone
  cases w.promise.done with
  | some c => exact h
  | none =>
    cases ch with
    | closedChan => rfl
    | made j => simp only [chanClosed] at h ⊢; exact getD_append_false h

/-- No call reopens a channel. -/
theorem chanClosed_exec [Inhabited R] [FmtV R] (c : Call R E) {w : World R E} {ch : Chan}
    (h : chanClosed w.chans ch = true) : chanClosed (c.exec w).state.chans ch = true := by
  rw [exec_state]
  cases c with
  | write wc =>
    simp only
    rcases run_state_cases wc w with ⟨-, hch⟩ | ⟨-, hch, -⟩
    · rw [hch]; exact chanClosed_heapAfterClose h
    · rw [hch]; exact h
  | Try => exact h
  | Done => exact chanClosed_doneDone h
  | Await ctx pick => exact chanClosed_doneDone h
  | PromiseString => exact h
  | FutureString => exact h

theorem chanClosed_runCalls [Inhabited R] [FmtV R] (calls : List (Call R E)) {w : World R E}
    {ch : Chan} (h : chanClosed w.chans ch = true) :
    chanClosed (runCalls calls w).chans ch = true := by
  induction calls generalizing w with
  | nil => exact h
  | cons c cs ih => exact ih (chanClosed_exec c h)

/-- Completed is absorbing: no call makes a completed promise pending. -/
theorem doneClosed_exec [Inhabited R] [FmtV R] (c : Call R E) {w : World R E}
    (h : doneClosed w = true) : doneClosed (c.exec w).state = true := by
  rw [exec_state]
  cases c with
  | write wc => exact (run_of_closed h wc).2
  | Try => exact h
  | Done => simp only; rw [(doneDone_of_closed h).1]; exact h
  | Await ctx pick => simp only; rw [(doneDone_of_closed h).1]; exact h
  | PromiseString => exact h
  | FutureString => exact h

theorem doneClosed_runCalls [Inhabited R] [FmtV R] (calls : List (Call R E)) {w : World R E}
    (h : doneClosed w = true) : doneClosed (runCalls calls w) = true := by
  induction calls generalizing w with
  | nil => exact h
  | cons c cs ih => exact ih (doneClosed_exec c h)

theorem runCalls_append [Inhabited R] [FmtV R] (xs ys : List (Call R E)) (w : World R E) :
    runCalls (xs ++ ys) w = runCalls ys (runCalls xs w) := by
  induction xs generalizing w with
  | nil => rfl
  | cons c cs ih => exact ih _

/-- Once `closedChan` is installed it stays, and no call touches the heap. -/
theorem closedChan_exec [Inhabited R] [FmtV R] (c : Call R E) {w : World R E}
    (h : w.promise.done = some .closedChan) :
    (c.exec w).state.promise.done = some .closedChan ∧ (c.exec w).state.chans = w.chans := by
  rw [exec_state]
  cases c with
  | write wc =>
    simp only
    rcases run_state_cases wc w with ⟨hd, hch⟩ | ⟨hp, hch, -⟩
    · exact ⟨hd, by rw [hch]; simp [heapAfterClose, h]⟩
    · exact ⟨by rw [hp]; exact h, hch⟩
  | Try => exact ⟨h, rfl⟩
  | Done => simp [doneDone, h]
  | Await ctx pick => simp [doneDone, h]
  | PromiseString => exact ⟨h, rfl⟩
  | FutureString => exact ⟨h, rfl⟩

theorem closedChan_runCalls [Inhabited R] [FmtV R] (calls : List (Call R E)) {w : World R E}
    (h : w.promise.done = some .closedChan) :
    (runCalls calls w).promise.done = some .closedChan ∧ (runCalls calls w).chans = w.chans := by
  induction calls generalizing w with
  | nil => exact ⟨h, rfl⟩
  | cons c cs ih =>
    obtain ⟨h1, h2⟩ := closedChan_exec c h
    obtain ⟨h3, h4⟩ := ih h1
    exact ⟨h3, by rw [← h2]; exact h4⟩

theorem FutureString_eq [FmtV R] (w : World R E) :
    Future.String .obj w =
      if doneClosed w then
        .returned ("Future resolved: " ++ FmtV.verbV w.promise.value ++ ", "
          ++ verbVError w.promise.err) w
      else .returned "Future pending" w := by
  unfold Future.String
  cases doneClosed w <;> simp

/-- C12: `Promise.String` is `Promise <nil>` for a nil pointer,
`Promise pending` while `Closed()` is false (before and after the wait handle
is obtained through `Done`) and `Promise resolved: <value>, <err>` once it is
true, a nil error rendered as `<nil>`; `Future.String` on the same storage is
the same with `Future` in front, so both report pending, or both resolved, in
every state.  The strings of the tests are the ones computed. -/
theorem String_mirrors_state [FmtV R] (w : World R E) :
    Promise.String .nil w = .returned "Promise <nil>" w ∧
    Future.String (Promise.Future .nil) w = .returned "Future <nil>" w ∧
    Promise.String .obj w =
      (if doneClosed w then
        .returned ("Promise resolved: " ++ FmtV.verbV w.promise.value ++ ", "
          ++ verbVError w.promise.err) w
      else .returned "Promise pending" w) ∧
    Future.String (Promise.Future .obj) w =
      (if doneClosed w then
        .returned ("Future resolved: " ++ FmtV.verbV w.promise.value ++ ", "
          ++ verbVError w.promise.err) w
      else .returned "Future pending" w) ∧
    Promise.String .obj (Future.Done .obj w).state =
      (if doneClosed w then
        .returned ("Promise resolved: " ++ FmtV.verbV w.promise.value ++ ", "
          ++ verbVError w.promise.err) (Future.Done .obj w).state
      else .returned "Promise pending" (Future.Done .obj w).state) ∧
    Future.String (Promise.Future .obj) (Future.Done .obj w).state =
      (if doneClosed w then
        .returned ("Future resolved: " ++ FmtV.verbV w.promise.value ++ ", "
          ++ verbVError w.promise.err) (Future.Done .obj w).state
      else .returned "Future pending" (Future.Done .obj w).state) ∧
    verbVError none = "<nil>" ∧
    Promise.String .obj (Promise.Resolve .obj 1 (World.fresh (R := Nat) ())).state
      = .returned "Promise resolved: 1, <nil>"
          { chans := [], promise := ⟨some .closedChan, 1, none⟩, env := () } ∧
    Future.String (Promise.Future .obj)
        (Promise.Reject .obj errTest (World.fresh (R := Int) ())).state
      = .returned "Future resolved: 0, test error"
          { chans := [], promise := ⟨some .closedChan, 0, errTest⟩, env := () } := by
  have hD : (Future.Done .obj w).state = (doneDone w).2 := rfl
  have hv : (doneDone w).2.promise.value = w.promise.value ∧
      (doneDone w).2.promise.err = w.promise.err := by
    unfold doneDone; cases w.promise.done <;> exact ⟨rfl, rfl⟩
  have hc : doneClosed (doneDone w).2 = doneClosed w := by
    cases h : doneClosed w with
    | false => exact doneClosed_doneDone h
    | true => rw [(doneDone_of_closed h).1]; exact h
  refine ⟨rfl, rfl, PromiseString_eq w, FutureString_eq w, ?_, ?_, rfl, rfl, rfl⟩
  · rw [hD, PromiseString_eq, hc, hv.1, hv.2]
  · rw [hD, Promise.Future, FutureString_eq, hc, hv.1, hv.2]

/-- C16: `Try` leaves the whole state, the `done` field, `value`, `err` and
the heap of channels, exactly as it was, in every state and for any number of
repeated calls; a promise whose `done` is nil still has it nil, and no channel
has been made. -/
theorem Try_leaves_state [Inhabited R] (f : Ptr) (w : World R E) (n : Nat) :
    (Future.Try f w).state = w ∧
    (tryTimes f n w).map Outcome.state = List.replicate n w ∧
    (tryTimes f n w).map (fun o => o.state.promise.done) = List.replicate n w.promise.done ∧
    (tryTimes f n w).map (fun o => o.state.chans.length) = List.replicate n w.chans.length := by
  obtain ⟨r, hr⟩ := Try_returns f w
  rw [tryTimes_const hr n]
  exact ⟨Try_state f w, by simp [Outcome.state], by simp [Outcome.state],
    by simp [Outcome.state]⟩

/-- C17: on a pending promise `Resolve`, `Reject` and a `Do` whose `fn` returns
leave the heap of channels with no channel added (untouched when `done` was
nil, the channel of `done` closed otherwise) and `closedChan` installed in
`done`; after any further calls `Done` still returns `closedChan` and the heap
is still the same: nothing is allocated. -/
theorem completion_installs_closedChan [Inhabited R] [FmtV R] (w : World R E) (hp : Pending w)
    (v : R) (e : GoErr) (fn : Func R E) (fv : R) (fe : GoErr) (env : E)
    (hfn : fn w.env = (.returns fv fe, env))
    (c : WriteCall R E) (s : World R E) (hc : c.run .obj w = .returned () s)
    (calls : List (Call R E)) :
    Promise.Resolve .obj v w = .returned ()
      { chans := heapAfterClose w, promise := ⟨some .closedChan, v, w.promise.err⟩,
        env := w.env } ∧
    Promise.Reject .obj e w = .returned ()
      { chans := heapAfterClose w, promise := ⟨some .closedChan, w.promise.value, e⟩,
        env := w.env } ∧
    Promise.Do .obj fn w = .returned ()
      { chans := heapAfterClose w, promise := ⟨some .closedChan, fv, fe⟩, env := env } ∧
    (heapAfterClose w).length = w.chans.length ∧
    (w.promise.done = none → heapAfterClose w = w.chans) ∧
    s.promise.done = some .closedChan ∧ s.chans = heapAfterClose w ∧
    Future.Done (Promise.Future .obj) (runCalls calls s)
      = .returned (some .closedChan) (runCalls calls s) ∧
    (runCalls calls s).chans = s.chans := by
  have hopen := doneClosed_of_pending hp
  have key : ∀ w' : World R E, w'.chans = w.chans → w'.promise.done = w.promise.done →
      Promise.close w' = .returned ()
        { chans := heapAfterClose w,
          promise := ⟨some .closedChan, w'.promise.value, w'.promise.err⟩, env := w'.env } := by
    intro w' h1 h2
    have ho : doneClosed w' = false := by
      unfold doneClosed at hopen ⊢; rw [h1, h2]; exact hopen
    obtain ⟨chans, hcl⟩ := close_of_open ho
    have hch := close_state_chans w'
    rw [hcl] at hch
    simp only [Outcome.state] at hch
    rw [hcl, hch]
    simp [heapAfterClose, h1, h2]
  have hs : s.promise.done = some .closedChan ∧ s.chans = heapAfterClose w := by
    rcases run_state_cases c w with h | ⟨-, -, hf⟩
    · rw [hc] at h; exact h
    · rw [hc] at hf; simp [Outcome.faulted] at hf
  obtain ⟨hd, hh⟩ := closedChan_runCalls calls hs.1
  refine ⟨key _ rfl rfl, key _ rfl rfl, ?_, ?_, ?_, hs.1, hs.2, ?_, hh⟩
  · simp only [Promise.Do, hfn]; exact key _ rfl rfl
  · unfold heapAfterClose; split <;> simp
  · intro hn; simp [heapAfterClose, hn]
  · simp [Future.Done, Promise.Future, doneDone, hd]

/-- Witness of C17: a fresh promise, on which `Done` was never called, is
resolved with 1; then `Done` is called twice around a `Try`. -/
theorem completion_installs_closedChan_witness :
    Promise.Resolve .obj 1 (World.fresh (R := Nat) ()) = .returned ()
      { chans := heapAfterClose (World.fresh (R := Nat) ()),
        promise := ⟨some .closedChan, 1, (World.fresh (R := Nat) ()).promise.err⟩,
        env := (World.fresh (R := Nat) ()).env } ∧
    Promise.Reject .obj errTest (World.fresh (R := Nat) ()) = .returned ()
      { chans := heapAfterClose (World.fresh (R := Nat) ()),
        promise := ⟨some .closedChan, (World.fresh (R := Nat) ()).promise.value, errTest⟩,
        env := (World.fresh (R := Nat) ()).env } ∧
    Promise.Do .obj (fun env => (.returns 5 none, env)) (World.fresh (R := Nat) ())
      = .returned ()
        { chans := heapAfterClose (World.fresh (R := Nat) ()),
          promise := ⟨some .closedChan, 5, none⟩, env := () } ∧
    (heapAfterClose (World.fresh (R := Nat) ())).length
      = (World.fresh (R := Nat) ()).chans.length ∧
    ((World.fresh (R := Nat) ()).promise.done = none →
      heapAfterClose (World.fresh (R := Nat) ()) = (World.fresh (R := Nat) ()).chans) ∧
    (⟨[], ⟨some .closedChan, 1, none⟩, ()⟩ : World Nat Unit).promise.done
      = some .closedChan ∧
    (⟨[], ⟨some .closedChan, 1, none⟩, ()⟩ : World Nat Unit).chans
      = heapAfterClose (World.fresh (R := Nat) ()) ∧
    Future.Done (Promise.Future .obj)
        (runCalls [Call.Done, Call.Try, Call.Done] ⟨[], ⟨some .closedChan, 1, none⟩, ()⟩)
      = .returned (some .closedChan)
        (runCalls [Call.Done, Call.Try, Call.Done] ⟨[], ⟨some .closedChan, 1, none⟩, ()⟩) ∧
    (runCalls [Call.Done, Call.Try, Call.Done]
        (⟨[], ⟨some .closedChan, 1, none⟩, ()⟩ : World Nat Unit)).chans
      = (⟨[], ⟨some .closedChan, 1, none⟩, ()⟩ : World Nat Unit).chans :=
  completion_installs_closedChan (World.fresh (R := Nat) ()) ⟨rfl, rfl, trivial⟩ 1 errTest
    (fun env => (.returns 5 none, env)) 5 none () rfl (WriteCall.Resolve 1)
    ⟨[], ⟨some .closedChan, 1, none⟩, ()⟩ rfl [Call.Done, Call.Try, Call.Done]

/-- C19: on a pending promise `Reject(nil)` returns and leaves exactly the
state that `Resolve` with the zero value of `R` leaves: every `Try` returns the
zero value and a nil error, and `String` reports the promise as resolved with
the error `<nil>`. -/
theorem Reject_nil_is_success [Inhabited R] [FmtV R] (w : World R E) (hp : Pending w)
    (n : Nat) :
    ∃ s, Promise.Reject .obj none w = .returned () s ∧
      Promise.Resolve .obj default w = .returned () s ∧
      tryTimes (Promise.Future .obj) n s = List.replicate n (.returned (default, none) s) ∧
      Promise.String .obj s
        = .returned ("Promise resolved: " ++ FmtV.verbV (default : R) ++ ", " ++ "<nil>") s ∧
      Future.String (Promise.Future .obj) s
        = .returned ("Future resolved: " ++ FmtV.verbV (default : R) ++ ", " ++ "<nil>") s := by
  have hopen := doneClosed_of_pending hp
  obtain ⟨hv, he, -⟩ := hp
  have h1 : { w with promise := { w.promise with err := none } } = w := by
    cases w with
    | mk chans promise env => cases promise with
      | mk done value err => simp only at he; subst he; rfl
  have h2 : { w with promise := { w.promise with value := default } } = w := by
    cases w with
    | mk chans promise env => cases promise with
      | mk done value err => simp only at hv; subst hv; rfl
  obtain ⟨chans, hc⟩ := close_of_open hopen
  have hcl : doneClosed (⟨chans, { w.promise with done := some .closedChan }, w.env⟩ : World R E)
      = true := by simp [doneClosed, chanClosed]
  have hrej : Promise.Reject .obj none w = Promise.close w := by
    simp only [Promise.Reject]; rw [h1]
  have hres : Promise.Resolve .obj default w = Promise.close w := by
    simp only [Promise.Resolve]; rw [h2]
  refine ⟨_, hrej.trans hc, hres.trans hc, tryTimes_const ?_ n, ?_, ?_⟩
  · rw [Promise.Future, Try_of_closed hcl]; simp [hv, he]
  · rw [PromiseString_eq, hcl]; simp [hv, he, verbVError]
  · rw [Promise.Future, FutureString_eq, hcl]; simp [hv, he, verbVError]

/-- Witness of C19: `Reject(nil)` on the pending promise of
`TestPromise_String` whose wait handle was obtained. -/
theorem Reject_nil_is_success_witness :
    ∃ s, Promise.Reject .obj none (Future.Done .obj (World.fresh (R := Nat) ())).state
        = .returned () s ∧
      Promise.Resolve .obj default (Future.Done .obj (World.fresh (R := Nat) ())).state
        = .returned () s ∧
      tryTimes (Promise.Future .obj) 2 s = List.replicate 2 (.returned (default, none) s) ∧
      Promise.String .obj s
        = .returned ("Promise resolved: " ++ FmtV.verbV (default : Nat) ++ ", " ++ "<nil>") s ∧
      Future.String (Promise.Future .obj) s
        = .returned ("Future resolved: " ++ FmtV.verbV (default : Nat) ++ ", " ++ "<nil>") s :=
  Reject_nil_is_success (Future.Done .obj (World.fresh (R := Nat) ())).state
    ⟨rfl, rfl, show 0 < [false].length ∧ [false].getD 0 false = false from ⟨by decide, rfl⟩⟩ 2

/-- C20: on a completed promise `Do(fn)` runs `fn` once on the caller's state
before anything is checked (the state `Do` leaves is the one that one run of
`fn` produced), and panics; when `fn` returns `(v, e)` both are assigned
before `close` raises the double-resolution panic. -/
theorem Do_on_completed_runs_fn (w : World R E) (h : doneClosed w = true) (fn : Func R E)
    (v : R) (e : GoErr) (env : E) (hfn : fn w.env = (.returns v e, env)) :
    (Promise.Do .obj fn w).state.env = (fn w.env).2 ∧
    Promise.Do .obj fn w = .panicked .closeOfClosedChannel
      { chans := w.chans, promise := ⟨some .closedChan, v, e⟩, env := env } := by
  have h3 : doneClosed
      { w with env := env, promise := { w.promise with value := v, err := e } } = true := h
  have hd : Promise.Do .obj fn w
      = Promise.close { w with env := env, promise := { w.promise with value := v, err := e } } := by
    simp only [Promise.Do, hfn]
  rw [close_of_closed h3] at hd
  rw [hd, hfn]
  exact ⟨rfl, rfl⟩

/-- Witness of C20: a function that counts its runs in the caller's state is
given to `Do` on a promise resolved with 1: the count is 1, the panic is
raised, and `(5, errTest)` has been assigned. -/
theorem Do_on_completed_runs_fn_witness :
    (Promise.Do .obj (fun calls : Nat => (FnResult.returns 5 errTest, calls + 1))
      (Promise.Resolve .obj 1 (World.fresh (R := Nat) 0)).state).state.env
      = ((fun calls : Nat => (FnResult.returns 5 errTest, calls + 1))
          (Promise.Resolve .obj 1 (World.fresh (R := Nat) 0)).state.env).2 ∧
    Promise.Do .obj (fun calls : Nat => (FnResult.returns 5 errTest, calls + 1))
      (Promise.Resolve .obj 1 (World.fresh (R := Nat) 0)).state
      = .panicked .closeOfClosedChannel
        { chans := (Promise.Resolve .obj 1 (World.fresh (R := Nat) 0)).state.chans,
          promise := ⟨some .closedChan, 5, errTest⟩, env := 1 } :=
  Do_on_completed_runs_fn (Promise.Resolve .obj 1 (World.fresh (R := Nat) 0)).state rfl
    (fun calls : Nat => (FnResult.returns 5 errTest, calls + 1)) 5 errTest 1 rfl

/-- When `done` is not nil `Done` returns the channel it points to and changes
nothing. -/
theorem Done_of_some {w : World R E} {c : Chan} (h : w.promise.done = some c) :
    Future.Done (Promise.Future .obj) w = .returned (some c) w := by
  simp [Future.Done, Promise.Future, doneDone, h]

theorem HandleInv_doneDone [Inhabited R] {w : World R E} (hp : Pending w) :
    HandleInv (doneDone w).1 (doneDone w).2 := by
  obtain ⟨-, -, hd⟩ := hp
  unfold doneDone
  cases hdone : w.promise.done with
  | none =>
    exact Or.inl ⟨rfl, by simp [chanClosed], _, rfl, by simp⟩
  | some c =>
    rw [hdone] at hd
    cases c with
    | closedChan => exact hd.elim
    | made id => exact Or.inl ⟨hdone, by simpa [chanClosed] using hd.2, id, rfl, hd.1⟩

theorem HandleInv_exec [Inhabited R] [FmtV R] (c : Call R E) {h : Chan} {w : World R E}
    (hi : HandleInv h w) : HandleInv h (c.exec w).state := by
  have hread : HandleInv h (doneDone w).2 := by
    have : (doneDone w).2 = w := by
      rcases hi with ⟨hd, -, -⟩ | ⟨hd, -⟩ <;> simp [doneDone, hd]
    rw [this]; exact hi
  rw [exec_state]
  cases c with
  | write wc =>
    simp only
    rcases run_state_cases wc w with ⟨hd, hch⟩ | ⟨hp, hch, -⟩
    · right
      refine ⟨hd, ?_⟩
      rw [hch]
      rcases hi with ⟨hdone, -, id, hid, hlt⟩ | ⟨-, hcl⟩
      · subst hid
        simp only [heapAfterClose, hdone, chanClosed]
        exact getD_set_self hlt
      · exact chanClosed_heapAfterClose hcl
    · rcases hi with ⟨hdone, hop, id, hid, hlt⟩ | ⟨hdone, hcl⟩
      · exact Or.inl ⟨by rw [hp]; exact hdone, by rw [hch]; exact hop, id, hid,
          by rw [hch]; exact hlt⟩
      · exact Or.inr ⟨by rw [hp]; exact hdone, by rw [hch]; exact hcl⟩
  | Try => exact hi
  | Done => exact hread
  | Await ctx pick => exact hread
  | PromiseString => exact hi
  | FutureString => exact hi

theorem HandleInv_runCalls [Inhabited R] [FmtV R] (calls : List (Call R E)) {h : Chan}
    {w : World R E} (hi : HandleInv h w) : HandleInv h (runCalls calls w) := by
  induction calls generalizing w with
  | nil => exact hi
  | cons c cs ih => exact ih (HandleInv_exec c hi)

/-- C11: on a pending promise `Done` returns a handle `h` that is not closed.
After any sequence of further calls: while the promise is not completed,
`Done` returns that same `h`, allocating nothing, and `h` is still open; once
the promise is completed (which only `Resolve`, `Reject` or `Do` bring about),
`h` is closed, stays closed under every later call, and `Done` returns a
closed handle. -/
theorem Done_handle_signals [Inhabited R] [FmtV R] (w : World R E) (hp : Pending w)
    (pre post : List (Call R E)) :
    Future.Done (Promise.Future .obj) w = .returned (some (doneDone w).1) (doneDone w).2 ∧
    chanClosed (doneDone w).2.chans (doneDone w).1 = false ∧
    (doneClosed (runCalls pre (doneDone w).2) = false →
      Future.Done (Promise.Future .obj) (runCalls pre (doneDone w).2)
        = .returned (some (doneDone w).1) (runCalls pre (doneDone w).2) ∧
      chanClosed (runCalls pre (doneDone w).2).chans (doneDone w).1 = false) ∧
    (doneClosed (runCalls pre (doneDone w).2) = true →
      chanClosed (runCalls pre (doneDone w).2).chans (doneDone w).1 = true ∧
      chanClosed (runCalls post (runCalls pre (doneDone w).2)).chans (doneDone w).1 = true ∧
      ∃ h', Future.Done (Promise.Future .obj) (runCalls pre (doneDone w).2)
          = .returned (some h') (runCalls pre (doneDone w).2) ∧
        chanClosed (runCalls pre (doneDone w).2).chans h' = true) := by
  have h0 := HandleInv_doneDone hp
  have hpre := HandleInv_runCalls pre h0
  refine ⟨rfl, ?_, ?_, ?_⟩
  · rcases h0 with ⟨-, hop, -⟩ | ⟨hd, -⟩
    · exact hop
    · have := doneClosed_doneDone (doneClosed_of_pending hp)
      simp [doneClosed, hd, chanClosed] at this
  · intro hopen
    rcases hpre with ⟨hd, hop, -⟩ | ⟨hd, -⟩
    · exact ⟨Done_of_some hd, hop⟩
    · simp [doneClosed, hd, chanClosed] at hopen
  · intro hcl
    rcases hpre with ⟨hd, hop, -⟩ | ⟨hd, hc⟩
    · simp [doneClosed, hd, hop] at hcl
    · exact ⟨hc, chanClosed_runCalls post hc, .closedChan, Done_of_some hd, rfl⟩

/-- Witness of C11: on a fresh promise `Done` returns the first channel made;
a second `Done` returns it again, open; after `Done`, `Try`, `Resolve(1)` it is
closed, it stays closed after `Done`, a faulting `Reject` and `Try`, and `Done`
returns a closed handle. -/
theorem Done_handle_signals_witness :
    (Future.Done (Promise.Future .obj) (runCalls [] (doneDone (World.fresh (R := Nat) ())).2)
        = .returned (some (doneDone (World.fresh (R := Nat) ())).1)
          (runCalls [] (doneDone (World.fresh (R := Nat) ())).2) ∧
      chanClosed (runCalls [] (doneDone (World.fresh (R := Nat) ())).2).chans
        (doneDone (World.fresh (R := Nat) ())).1 = false) ∧
    (chanClosed
        (runCalls [Call.Done, Call.Try, Call.write (.Resolve 1)]
          (doneDone (World.fresh (R := Nat) ())).2).chans
        (doneDone (World.fresh (R := Nat) ())).1 = true ∧
      chanClosed
        (runCalls [Call.Done, Call.write (.Reject errTest), Call.Try]
          (runCalls [Call.Done, Call.Try, Call.write (.Resolve 1)]
            (doneDone (World.fresh (R := Nat) ())).2)).chans
        (doneDone (World.fresh (R := Nat) ())).1 = true ∧
      ∃ h', Future.Done (Promise.Future .obj)
            (runCalls [Call.Done, Call.Try, Call.write (.Resolve 1)]
              (doneDone (World.fresh (R := Nat) ())).2)
          = .returned (some h')
            (runCalls [Call.Done, Call.Try, Call.write (.Resolve 1)]
              (doneDone (World.fresh (R := Nat) ())).2) ∧
        chanClosed
          (runCalls [Call.Done, Call.Try, Call.write (.Resolve 1)]
            (doneDone (World.fresh (R := Nat) ())).2).chans h' = true) :=
  ⟨(Done_handle_signals (World.fresh (R := Nat) ()) ⟨rfl, rfl, trivial⟩ [] []).2.2.1 rfl,
   (Done_handle_signals (World.fresh (R := Nat) ()) ⟨rfl, rfl, trivial⟩
      [Call.Done, Call.Try, Call.write (.Resolve 1)]
      [Call.Done, Call.write (.Reject errTest), Call.Try]).2.2.2 rfl⟩

theorem returnedWrite_exec [Inhabited R] [FmtV R] (c : Call R E) (w : World R E)
    (h : returnedWrite (c, c.exec w) = true) :
    (c.exec w).state.promise.done = some .closedChan := by
  cases c with
  | write wc =>
    rw [exec_state]
    simp only
    rcases run_state_cases wc w with ⟨hd, -⟩ | ⟨-, -, hf⟩
    · exact hd
    · simp only [Call.exec] at h
      cases hr : wc.run .obj w with
      | returned a s => rw [hr] at hf; simp [Outcome.faulted] at hf
      | panicked why s => rw [hr] at h; simp [Outcome.mapResult, returnedWrite] at h
      | blocked s => rw [hr] at h; simp [Outcome.mapResult, returnedWrite] at h
  | Try => simp [returnedWrite] at h
  | Done => simp [returnedWrite] at h
  | Await ctx pick => simp [returnedWrite] at h
  | PromiseString => simp [returnedWrite] at h
  | FutureString => simp [returnedWrite] at h

theorem returnedWrite_of_closed [Inhabited R] [FmtV R] (c : Call R E) {w : World R E}
    (h : doneClosed w = true) : returnedWrite (c, c.exec w) = false := by
  cases c with
  | write wc =>
    have hf := (run_of_closed h wc).1
    simp only [Call.exec]
    cases hr : wc.run .obj w with
    | returned a s => rw [hr] at hf; simp [Outcome.faulted] at hf
    | panicked why s => rfl
    | blocked s => rfl
  | Try => rfl
  | Done => rfl
  | Await ctx pick => rfl
  | PromiseString => rfl
  | FutureString => rfl

/-- On a completed promise no resolving call returns. -/
theorem countP_returnedWrite_of_closed [Inhabited R] [FmtV R] (calls : List (Call R E))
    {w : World R E} (h : doneClosed w = true) :
    (trace calls w).countP returnedWrite = 0 := by
  induction calls generalizing w with
  | nil => rfl
  | cons c cs ih =>
    simp only [trace, List.countP_cons, returnedWrite_of_closed c h, ih (doneClosed_exec c h)]
    simp

/-- At most one resolving call of a sequence returns. -/
theorem countP_returnedWrite_le [Inhabited R] [FmtV R] (calls : List (Call R E))
    (w : World R E) : (trace calls w).countP returnedWrite ≤ 1 := by
  induction calls generalizing w with
  | nil => simp [trace]
  | cons c cs ih =>
    simp only [trace, List.countP_cons]
    by_cases hr : returnedWrite (c, c.exec w) = true
    · have hd := returnedWrite_exec c w hr
      have hcl : doneClosed (c.exec w).state = true := by simp [doneClosed, hd, chanClosed]
      rw [countP_returnedWrite_of_closed cs hcl]
      simp [hr]
    · have := ih (c.exec w).state
      simp only [hr, Bool.false_eq_true, ↓reduceIte, add_zero]
      exact this

/-- A call that is not a resolving call leaves `value` and `err` alone. -/
theorem exec_read_promise [Inhabited R] [FmtV R] (c : Call R E) (w : World R E)
    (h : c.isWrite = false) :
    (c.exec w).state.promise.value = w.promise.value ∧
    (c.exec w).state.promise.err = w.promise.err := by
  have hD : (doneDone w).2.promise.value = w.promise.value ∧
      (doneDone w).2.promise.err = w.promise.err := by
    unfold doneDone; cases w.promise.done <;> exact ⟨rfl, rfl⟩
  rw [exec_state]
  cases c with
  | write wc => simp [Call.isWrite] at h
  | Try => exact ⟨rfl, rfl⟩
  | Done => exact hD
  | Await ctx pick => exact hD
  | PromiseString => exact ⟨rfl, rfl⟩
  | FutureString => exact ⟨rfl, rfl⟩

theorem runCalls_read_promise [Inhabited R] [FmtV R] (calls : List (Call R E)) (w : World R E)
    (h : calls.all (fun c => !c.isWrite) = true) :
    (runCalls calls w).promise.value = w.promise.value ∧
    (runCalls calls w).promise.err = w.promise.err := by
  induction calls generalizing w with
  | nil => exact ⟨rfl, rfl⟩
  | cons c cs ih =>
    simp only [List.all_cons, Bool.and_eq_true, Bool.not_eq_true'] at h
    obtain ⟨h1, h2⟩ := exec_read_promise c w h.1
    obtain ⟨h3, h4⟩ := ih (c.exec w).state h.2
    exact ⟨h3.trans h1, h4.trans h2⟩

/-- C18 as stated fails: after `Resolve(0)` a `Try` returns `(0, nil)`; a
`Reject(ErrNotReady)` then panics, and the next `Try` returns `ErrNotReady`. -/
theorem Try_ErrNotReady_after_completion_counterexample :
    tryAnswers (trace
        [Call.write (.Resolve 0), Call.Try, Call.write (.Reject ErrNotReady), Call.Try]
        (World.fresh (R := Nat) ()))
      = [(0, none), (0, ErrNotReady)] ∧
    (trace [Call.write (.Resolve 0), Call.Try, Call.write (.Reject ErrNotReady), Call.Try]
        (World.fresh (R := Nat) ())).map (fun x => x.2.faulted)
      = [false, false, true, false] :=
  ⟨rfl, rfl⟩

/-- C18 amended: in every sequence of `Resolve`, `Reject`, `Do`, `Try`, `Done`,
`Await` and `String` calls, panics recovered, at most one resolving call
returns; and once a `Try` has returned something other than `ErrNotReady` the
promise is completed and stays completed under every later call: every later
`Try` returns the stored pair, and that is the same pair as long as no further
resolving call is made. -/
theorem write_once [Inhabited R] [FmtV R] (w : World R E) (pre post : List (Call R E))
    (r : R × GoErr)
    (htry : Future.Try (Promise.Future .obj) (runCalls pre w) = .returned r (runCalls pre w))
    (hr : r.2 ≠ ErrNotReady) :
    (trace (pre ++ Call.Try :: post) w).countP returnedWrite ≤ 1 ∧
    doneClosed (runCalls pre w) = true ∧
    doneClosed (runCalls post (runCalls pre w)) = true ∧
    Future.Try (Promise.Future .obj) (runCalls post (runCalls pre w))
      = .returned ((runCalls post (runCalls pre w)).promise.value,
          (runCalls post (runCalls pre w)).promise.err) (runCalls post (runCalls pre w)) ∧
    (post.all (fun c => !c.isWrite) = true →
      Future.Try (Promise.Future .obj) (runCalls post (runCalls pre w))
        = .returned r (runCalls post (runCalls pre w))) := by
  have hcl : doneClosed (runCalls pre w) = true := by
    cases h : doneClosed (runCalls pre w) with
    | true => rfl
    | false =>
      rw [Promise.Future, Try_of_open h] at htry
      injection htry with h1 _
      exact absurd (by rw [← h1]) hr
  have hpost := doneClosed_runCalls post hcl
  refine ⟨countP_returnedWrite_le _ w, hcl, hpost, Try_of_closed hpost, ?_⟩
  intro hall
  obtain ⟨hv, he⟩ := runCalls_read_promise post (runCalls pre w) hall
  rw [Promise.Future, Try_of_closed hcl] at htry
  injection htry with h1 _
  rw [Promise.Future, Try_of_closed hpost, hv, he, h1]

/-- Witness of C18 amended: after `Done` and `Resolve(1)` a `Try` returns
`(1, nil)`; then come `Done`, a `String` and an `Await`. -/
theorem write_once_witness :
    (trace ([Call.Done, Call.write (.Resolve 1)] ++ Call.Try ::
        [Call.Done, Call.PromiseString, Call.Await cancelledContext 0])
        (World.fresh (R := Nat) ())).countP returnedWrite ≤ 1 ∧
    doneClosed (runCalls [Call.Done, Call.write (.Resolve 1)] (World.fresh (R := Nat) ()))
      = true ∧
    doneClosed (runCalls [Call.Done, Call.PromiseString, Call.Await cancelledContext 0]
      (runCalls [Call.Done, Call.write (.Resolve 1)] (World.fresh (R := Nat) ()))) = true ∧
    Future.Try (Promise.Future .obj)
        (runCalls [Call.Done, Call.PromiseString, Call.Await cancelledContext 0]
          (runCalls [Call.Done, Call.write (.Resolve 1)] (World.fresh (R := Nat) ())))
      = .returned
        ((runCalls [Call.Done, Call.PromiseString, Call.Await cancelledContext 0]
          (runCalls [Call.Done, Call.write (.Resolve 1)]
            (World.fresh (R := Nat) ()))).promise.value,
         (runCalls [Call.Done, Call.PromiseString, Call.Await cancelledContext 0]
          (runCalls [Call.Done, Call.write (.Resolve 1)]
            (World.fresh (R := Nat) ()))).promise.err)
        (runCalls [Call.Done, Call.PromiseString, Call.Await cancelledContext 0]
          (runCalls [Call.Done, Call.write (.Resolve 1)] (World.fresh (R := Nat) ()))) ∧
    ([Call.Done, Call.PromiseString, Call.Await cancelledContext 0].all
        (fun c : Call Nat Unit => !c.isWrite) = true →
      Future.Try (Promise.Future .obj)
          (runCalls [Call.Done, Call.PromiseString, Call.Await cancelledContext 0]
            (runCalls [Call.Done, Call.write (.Resolve 1)] (World.fresh (R := Nat) ())))
        = .returned (1, none)
          (runCalls [Call.Done, Call.PromiseString, Call.Await cancelledContext 0]
            (runCalls [Call.Done, Call.write (.Resolve 1)] (World.fresh (R := Nat) ())))) :=
  write_once (World.fresh (R := Nat) ()) [Call.Done, Call.write (.Resolve 1)]
    [Call.Done, Call.PromiseString, Call.Await cancelledContext 0] (1, none) rfl (by decide)

/-! ## Lemmas on the goroutines -/

/-- Two schedules of `TestMultiple` with two awaiters, evaluated: in the first
an awaiter publishes its handle before `Resolve(7)` starts, in the second the
two awaiters race for the handle and the resolving call swaps in between. -/
theorem two_awaiters_evaluated :
    (Conc.run [1, 1, 1, 2, 0, 0, 0, 1, 1, 2, 2, 2, 2, 2]
      (Conc.init (.Resolve 7) 2 ())).awaiters
      = [AwaiterPc.returned 7 none, AwaiterPc.returned 7 none] ∧
    (Conc.run [1, 1, 2, 2, 2, 1, 0, 0, 1, 1, 0, 1, 1, 2, 2, 2, 2, 2]
      (Conc.init (.Resolve 7) 2 ())).awaiters
      = [AwaiterPc.returned 7 none, AwaiterPc.returned 7 none] :=
  ⟨by decide, by decide⟩

theorem Inv_init [Inhabited R] (call : WriteCall R E) (k : Nat) (env : E) (tv : R) (te : GoErr)
    (ht : call.target env = some (tv, te)) : Inv tv te env (Conc.init call k env) := by
  refine ⟨ht, ⟨rfl, rfl, rfl, by simp [Conc.init, World.fresh, Promise.zero], fun id => by
    simp [Conc.init, World.fresh], fun id h => by
    simp [Conc.init, World.fresh, Promise.zero] at h⟩, ?_⟩
  intro a ha
  simp only [Conc.init, List.mem_replicate] at ha
  rw [ha.2]
  trivial

theorem forall_mem_set {α : Type} {l : List α} {i : Nat} {x : α} {P : α → Prop}
    (h : ∀ a ∈ l, P a) (hx : P x) : ∀ a ∈ l.set i x, P a := by
  intro a ha
  rcases List.mem_or_eq_of_mem_set ha with h1 | h1
  · exact h a h1
  · rw [h1]; exact hx

theorem getD_append_open {l : List Bool} (h : ∀ id, l.getD id false = false) :
    ∀ id, (l ++ [false]).getD id false = false := by
  intro id
  by_cases hlt : id < l.length
  · rw [List.getD_append _ _ _ _ hlt]; exact h id
  · rw [List.getD_append_right _ _ _ _ (Nat.le_of_not_lt hlt)]
    cases id - l.length <;> simp

/-- Before the swap an awaiter's invariant only looks at `done` and the heap. -/
theorem AwaiterOK_preSwap {tv : R} {te : GoErr} {w w' : World R E} (wr wr' : WriterPc R)
    (h1 : wr.preSwap = true) (h2 : wr'.preSwap = true)
    (hd : w'.promise.done = w.promise.done) (hc : w'.chans = w.chans) {a : AwaiterPc R}
    (h : AwaiterOK tv te w wr a) : AwaiterOK tv te w' wr' a := by
  cases a with
  | start => trivial
  | alloc => trivial
  | cas c => simpa only [AwaiterOK, hc] using h
  | reload => simpa only [AwaiterOK, hd] using h
  | parked ch =>
    cases ch with
    | closedChan => cases wr <;> simp_all [AwaiterOK, WriterPc.preSwap, WriterPc.completed]
    | made id =>
      cases wr <;> cases wr' <;> simp_all [AwaiterOK, WriterPc.preSwap]
  | woken => cases wr <;> simp_all [AwaiterOK, WriterPc.preSwap, WriterPc.completed]
  | returned value err => exact h
  | panicked why => exact h

/-- Making a channel keeps the invariant of the resolving call. -/
theorem WriterOK_grow [Inhabited R] {tv : R} {te : GoErr} {env0 : E} {call : WriteCall R E}
    {w : World R E} {wr : WriterPc R} (h : WriterOK tv te env0 call w wr) :
    WriterOK tv te env0 call { w with chans := w.chans ++ [false] } wr := by
  have hpre : PreSwap w → PreSwap { w with chans := w.chans ++ [false] } := by
    rintro ⟨a, b, c⟩
    refine ⟨a, getD_append_open b, fun id hid => ?_⟩
    have := c id hid
    simp only [List.length_append, List.length_singleton]
    omega
  cases wr with
  | start => exact ⟨h.1, h.2.1, h.2.2.1, hpre h.2.2.2⟩
  | ran value err => exact ⟨h.1, h.2.1, h.2.2.1, hpre h.2.2.2⟩
  | stored => exact ⟨h.1, h.2.1, h.2.2.1, hpre h.2.2.2⟩
  | swapped old =>
    obtain ⟨a, b, c, d, e, f⟩ := h
    refine ⟨a, b, c, d, getD_append_open e, ?_⟩
    rcases f with f | ⟨id, f1, f2⟩
    · exact Or.inl f
    · refine Or.inr ⟨id, f1, ?_⟩
      simp only [List.length_append, List.length_singleton]
      omega
  | finished => exact h
  | panicked why => exact h

/-- Making a channel keeps the invariant of every awaiter. -/
theorem AwaiterOK_grow {tv : R} {te : GoErr} {w : World R E} {wr : WriterPc R}
    {a : AwaiterPc R} (h : AwaiterOK tv te w wr a) :
    AwaiterOK tv te { w with chans := w.chans ++ [false] } wr a := by
  cases a with
  | start => trivial
  | alloc => trivial
  | cas c =>
    obtain ⟨id, h1, h2⟩ := h
    refine ⟨id, h1, ?_⟩
    simp only [List.length_append, List.length_singleton]
    omega
  | reload => exact h
  | parked ch =>
    cases ch with
    | closedChan => exact h
    | made id =>
      obtain ⟨h1, h2⟩ := h
      refine ⟨by simp only [List.length_append, List.length_singleton]; omega, ?_⟩
      cases wr with
      | finished => exact getD_append_false h2
      | start => exact h2
      | ran value err => exact h2
      | stored => exact h2
      | swapped old => exact h2
      | panicked why => exact h2
  | woken => exact h
  | returned value err => exact h
  | panicked why => exact h

/-- An awaiter that loads a channel from `done` may park on it. -/
theorem AwaiterOK_parked [Inhabited R] {tv : R} {te : GoErr} {env0 : E} {call : WriteCall R E}
    {w : World R E} {wr : WriterPc R} (h : WriterOK tv te env0 call w wr) {c : Chan}
    (hd : w.promise.done = some c) : AwaiterOK tv te w wr (.parked c) := by
  cases c with
  | closedChan =>
    cases wr with
    | start => exact absurd hd h.2.2.2.1
    | ran value err => exact absurd hd h.2.2.2.1
    | stored => exact absurd hd h.2.2.2.1
    | swapped old => rfl
    | finished => rfl
    | panicked why => exact h.elim
  | made id =>
    cases wr with
    | start => exact ⟨h.2.2.2.2.2 id hd, hd⟩
    | ran value err => exact ⟨h.2.2.2.2.2 id hd, hd⟩
    | stored => exact ⟨h.2.2.2.2.2 id hd, hd⟩
    | swapped old => rw [h.2.2.2.1] at hd; cases hd
    | finished => rw [h.2.2.2] at hd; cases hd
    | panicked why => exact h.elim

/-- A step of the resolving call keeps the invariant. -/
theorem Inv_writerStep [Inhabited R] {tv : R} {te : GoErr} {env0 : E} {cfg cfg' : Conc R E}
    (h : Inv tv te env0 cfg) (hs : cfg.writerStep = some cfg') : Inv tv te env0 cfg' := by
  obtain ⟨world, call, writer, awaiters⟩ := cfg
  obtain ⟨ht, hw, ha⟩ := h
  simp only at ht hw ha
  cases writer with
  | start =>
    obtain ⟨hv, he, henv, hpre⟩ := hw
    cases call with
    | Resolve value =>
      simp only [Conc.writerStep, Option.some.injEq] at hs
      subst hs
      simp only [WriteCall.target, Option.some.injEq, Prod.mk.injEq] at ht
      exact ⟨by simp [WriteCall.target, ht.1, ht.2], ⟨ht.1, ht.2 ▸ he, henv, hpre⟩,
        fun a h => AwaiterOK_preSwap .start .stored rfl rfl rfl rfl (ha a h)⟩
    | Reject err =>
      simp only [Conc.writerStep, Option.some.injEq] at hs
      subst hs
      simp only [WriteCall.target, Option.some.injEq, Prod.mk.injEq] at ht
      exact ⟨by simp [WriteCall.target, ht.1, ht.2], ⟨ht.1 ▸ hv, ht.2, henv, hpre⟩,
        fun a h => AwaiterOK_preSwap .start .stored rfl rfl rfl rfl (ha a h)⟩
    | Do fn =>
      simp only [Conc.writerStep] at hs
      simp only [WriteCall.target] at ht
      rw [henv] at hs
      rcases hfn : fn env0 with ⟨res, env⟩
      rw [hfn] at hs ht
      cases res with
      | returns value err =>
        simp only [Option.some.injEq] at hs
        subst hs
        simp only [Option.some.injEq, Prod.mk.injEq] at ht
        exact ⟨by simp [WriteCall.target, hfn, ht.1, ht.2],
          ⟨ht.1, ht.2, by simp [WriteCall.envAfter, hfn], hpre⟩,
          fun a h => AwaiterOK_preSwap .start (.ran value err) rfl rfl rfl rfl (ha a h)⟩
      | panics msg => simp at ht
  | ran value err =>
    obtain ⟨hv, he, henv, hpre⟩ := hw
    simp only [Conc.writerStep, Option.some.injEq] at hs
    subst hs
    exact ⟨ht, ⟨hv, he, henv, hpre⟩, fun a h => AwaiterOK_preSwap (.ran value err) .stored rfl rfl rfl rfl (ha a h)⟩
  | stored =>
    obtain ⟨hv, he, henv, hne, hopen, hlen⟩ := hw
    simp only [Conc.writerStep, Option.some.injEq] at hs
    subst hs
    refine ⟨ht, ⟨hv, he, henv, rfl, hopen, ?_⟩, ?_⟩
    · cases hd : world.promise.done with
      | none => exact Or.inl rfl
      | some c =>
        cases c with
        | closedChan => exact absurd hd hne
        | made id => exact Or.inr ⟨id, rfl, hlen id hd⟩
    · intro a h
      have := ha a h
      cases a with
      | start => trivial
      | alloc => trivial
      | cas c => exact this
      | reload => simp [AwaiterOK]
      | parked ch =>
        cases ch with
        | closedChan => rfl
        | made id => exact ⟨this.1, this.2⟩
      | woken => rfl
      | returned value err => exact this
      | panicked why => exact this
  | swapped old =>
    obtain ⟨hv, he, henv, hdone, hopen, hold⟩ := hw
    cases old with
    | none =>
      simp only [Conc.writerStep, Option.some.injEq] at hs
      subst hs
      refine ⟨ht, ⟨hv, he, henv, hdone⟩, ?_⟩
      intro a h
      have := ha a h
      cases a with
      | start => trivial
      | alloc => trivial
      | cas c => exact this
      | reload => exact this
      | parked ch =>
        cases ch with
        | closedChan => rfl
        | made id => exact absurd this.2 (by simp)
      | woken => rfl
      | returned value err => exact this
      | panicked why => exact this
    | some c =>
      rcases hold with hold | ⟨id, hold, hlt⟩
      · cases hold
      · simp only [Option.some.injEq] at hold
        subst hold
        simp only [Conc.writerStep, closeChan, hopen id, Bool.false_eq_true, ↓reduceIte,
          Option.some.injEq] at hs
        subst hs
        refine ⟨ht, ⟨hv, he, henv, hdone⟩, ?_⟩
        intro a h
        have := ha a h
        cases a with
        | start => trivial
        | alloc => trivial
        | cas c =>
          obtain ⟨id', h1, h2⟩ := this
          exact ⟨id', h1, by simpa using h2⟩
        | reload => exact this
        | parked ch =>
          cases ch with
          | closedChan => rfl
          | made id' =>
            obtain ⟨h1, h2⟩ := this
            simp only [Option.some.injEq, Chan.made.injEq] at h2
            subst h2
            exact ⟨by simpa using h1, getD_set_self hlt⟩
        | woken => rfl
        | returned value err => exact this
        | panicked why => exact this
  | finished => simp [Conc.writerStep] at hs
  | panicked why => simp [Conc.writerStep] at hs

/-- Before the swap no awaiter is woken or parked on `closedChan`, and an
awaiter parked on a made channel has it from `done`. -/
theorem AwaiterOK_of_done_none {tv : R} {te : GoErr} {w : World R E} (w' : World R E)
    {wr : WriterPc R} (hpre : wr.preSwap = true) (hd : w.promise.done = none) (hc : w'.chans = w.chans)
    (hd' : w'.promise.done ≠ none) {a : AwaiterPc R}
    (h : AwaiterOK tv te w wr a) : AwaiterOK tv te w' wr a := by
  cases a with
  | start => trivial
  | alloc => trivial
  | cas c => simpa only [AwaiterOK, hc] using h
  | reload => exact hd'
  | parked ch =>
    cases ch with
    | closedChan => exact h
    | made id =>
      cases wr <;> simp_all [AwaiterOK, WriterPc.preSwap]
  | woken => exact h
  | returned value err => exact h
  | panicked why => exact h

/-- A step of an awaiter keeps the invariant. -/
theorem Inv_awaiterStep [Inhabited R] {tv : R} {te : GoErr} {env0 : E} {cfg cfg' : Conc R E}
    {i : Nat} (h : Inv tv te env0 cfg) (hs : cfg.awaiterStep i = some cfg') :
    Inv tv te env0 cfg' := by
  obtain ⟨world, call, writer, awaiters⟩ := cfg
  obtain ⟨ht, hw, ha⟩ := h
  simp only at ht hw ha
  simp only [Conc.awaiterStep] at hs
  cases hai : awaiters[i]? with
  | none => rw [hai] at hs; simp at hs
  | some pc =>
    rw [hai] at hs
    have hpc := ha pc (List.getElem?_mem hai)
    cases pc with
    | start =>
      simp only at hs
      cases hd : world.promise.done with
      | some c =>
        rw [hd] at hs
        simp only [Option.some.injEq] at hs
        subst hs
        exact ⟨ht, hw, forall_mem_set ha (AwaiterOK_parked hw hd)⟩
      | none =>
        rw [hd] at hs
        simp only [Option.some.injEq] at hs
        subst hs
        exact ⟨ht, hw, forall_mem_set ha trivial⟩
    | alloc =>
      simp only [Option.some.injEq] at hs
      subst hs
      refine ⟨ht, WriterOK_grow hw, ?_⟩
      refine forall_mem_set (fun a h => AwaiterOK_grow (ha a h)) ?_
      exact ⟨world.chans.length, rfl, by simp⟩
    | cas c =>
      simp only at hs
      cases hd : world.promise.done with
      | none =>
        rw [hd] at hs
        simp only [Option.some.injEq] at hs
        subst hs
        obtain ⟨id, hc, hlt⟩ := hpc
        subst hc
        have hwr : writer.preSwap = true := by
          cases writer with
          | start => rfl
          | ran value err => rfl
          | stored => rfl
          | swapped old => rw [hw.2.2.2.1] at hd; cases hd
          | finished => rw [hw.2.2.2] at hd; cases hd
          | panicked why => exact hw.elim
        have hpre' : PreSwap
            ({ world with promise := { world.promise with done := some (.made id) } }
              : World R E) := by
          have hopen : AllOpen world := by
            cases writer with
            | start => exact hw.2.2.2.2.1
            | ran value err => exact hw.2.2.2.2.1
            | stored => exact hw.2.2.2.2.1
            | swapped old => cases hwr
            | finished => cases hwr
            | panicked why => exact hw.elim
          refine ⟨by simp, hopen, fun id' hid' => ?_⟩
          simp only [Option.some.injEq, Chan.made.injEq] at hid'
          rw [← hid']; exact hlt
        refine ⟨ht, ?_, ?_⟩
        · cases writer with
          | start => exact ⟨hw.1, hw.2.1, hw.2.2.1, hpre'⟩
          | ran value err => exact ⟨hw.1, hw.2.1, hw.2.2.1, hpre'⟩
          | stored => exact ⟨hw.1, hw.2.1, hw.2.2.1, hpre'⟩
          | swapped old => cases hwr
          | finished => cases hwr
          | panicked why => exact hw.elim
        · refine forall_mem_set
            (fun a h => AwaiterOK_of_done_none
              ({ world with promise := { world.promise with done := some (.made id) } })
              hwr hd rfl (by simp) (ha a h)) ?_
          refine ⟨hlt, ?_⟩
          cases writer with
          | start => rfl
          | ran value err => rfl
          | stored => rfl
          | swapped old => cases hwr
          | finished => cases hwr
          | panicked why => exact hw.elim
      | some c' =>
        rw [hd] at hs
        simp only [Option.some.injEq] at hs
        subst hs
        refine ⟨ht, hw, forall_mem_set ha ?_⟩
        show world.promise.done ≠ none
        rw [hd]; simp
    | reload =>
      simp only at hs
      cases hd : world.promise.done with
      | some c =>
        rw [hd] at hs
        simp only [Option.some.injEq] at hs
        subst hs
        exact ⟨ht, hw, forall_mem_set ha (AwaiterOK_parked hw hd)⟩
      | none => exact absurd hd hpc
    | parked ch =>
      simp only at hs
      by_cases hcl : chanClosed world.chans ch = true
      · rw [if_pos hcl] at hs
        simp only [Option.some.injEq] at hs
        subst hs
        refine ⟨ht, hw, forall_mem_set ha ?_⟩
        cases ch with
        | closedChan => exact hpc
        | made id =>
          simp only [chanClosed] at hcl
          obtain ⟨-, h2⟩ := hpc
          cases writer with
          | start => rw [hw.2.2.2.2.1 id] at hcl; cases hcl
          | ran value err => rw [hw.2.2.2.2.1 id] at hcl; cases hcl
          | stored => rw [hw.2.2.2.2.1 id] at hcl; cases hcl
          | swapped old => rw [hw.2.2.2.2.1 id] at hcl; cases hcl
          | finished => rfl
          | panicked why => exact hw.elim
      · rw [if_neg hcl] at hs; cases hs
    | woken =>
      simp only [Option.some.injEq] at hs
      subst hs
      refine ⟨ht, hw, forall_mem_set ha ?_⟩
      cases writer with
      | start => cases hpc
      | ran value err => cases hpc
      | stored => cases hpc
      | swapped old => exact ⟨hw.1, hw.2.1⟩
      | finished => exact ⟨hw.1, hw.2.1⟩
      | panicked why => exact hw.elim
    | returned value err => simp at hs
    | panicked why => simp at hs

theorem Inv_step [Inhabited R] {tv : R} {te : GoErr} {env0 : E} {cfg cfg' : Conc R E}
    {tid : Nat} (h : Inv tv te env0 cfg) (hs : cfg.step tid = some cfg') :
    Inv tv te env0 cfg' := by
  cases tid with
  | zero => exact Inv_writerStep h hs
  | succ i => exact Inv_awaiterStep h hs

/-- The invariant holds after every schedule. -/
theorem Inv_run [Inhabited R] {tv : R} {te : GoErr} {env0 : E} (sched : List Nat)
    {cfg : Conc R E} (h : Inv tv te env0 cfg) : Inv tv te env0 (Conc.run sched cfg) := by
  induction sched generalizing cfg with
  | nil => exact h
  | cons tid rest ih =>
    simp only [Conc.run]
    cases hs : cfg.step tid with
    | none => exact ih h
    | some cfg' => exact ih (Inv_step h hs)

theorem run_append (xs ys : List Nat) (cfg : Conc R E) :
    Conc.run (xs ++ ys) cfg = Conc.run ys (Conc.run xs cfg) := by
  induction xs generalizing cfg with
  | nil => rfl
  | cons tid rest ih => exact ih _

theorem writerStep_awaiters {cfg cfg' : Conc R E} (hs : cfg.writerStep = some cfg') :
    cfg'.awaiters = cfg.awaiters ∧ cfg'.call = cfg.call := by
  obtain ⟨world, call, writer, awaiters⟩ := cfg
  simp only [Conc.writerStep] at hs
  cases writer with
  | start =>
    cases call with
    | Resolve value => simp only [Option.some.injEq] at hs; subst hs; exact ⟨rfl, rfl⟩
    | Reject err => simp only [Option.some.injEq] at hs; subst hs; exact ⟨rfl, rfl⟩
    | Do fn =>
      simp only at hs
      rcases hfn : fn world.env with ⟨res, env⟩
      rw [hfn] at hs
      cases res <;> (simp only [Option.some.injEq] at hs; subst hs; exact ⟨rfl, rfl⟩)
  | ran value err => simp only [Option.some.injEq] at hs; subst hs; exact ⟨rfl, rfl⟩
  | stored => simp only [Option.some.injEq] at hs; subst hs; exact ⟨rfl, rfl⟩
  | swapped old =>
    cases old with
    | none => simp only [Option.some.injEq] at hs; subst hs; exact ⟨rfl, rfl⟩
    | some c =>
      simp only at hs
      cases hcl : closeChan world.chans c with
      | returned u chans =>
        rw [hcl] at hs; simp only [Option.some.injEq] at hs; subst hs; exact ⟨rfl, rfl⟩
      | panicked why chans =>
        rw [hcl] at hs; simp only [Option.some.injEq] at hs; subst hs; exact ⟨rfl, rfl⟩
      | blocked chans => rw [hcl] at hs; cases hs
  | finished => cases hs
  | panicked why => cases hs

/-- What a step of awaiter `i` does to the goroutines: awaiter `i` moves from
`pc` to a `pc'` with less fuel, the resolving call stays where it is. -/
theorem awaiterStep_awaiters {cfg cfg' : Conc R E} {i : Nat}
    (hs : cfg.awaiterStep i = some cfg') :
    ∃ pc pc', cfg.awaiters[i]? = some pc ∧ cfg'.awaiters = cfg.awaiters.set i pc' ∧
      pc'.fuel < pc.fuel ∧ cfg'.writer = cfg.writer ∧ cfg'.call = cfg.call := by
  obtain ⟨world, call, writer, awaiters⟩ := cfg
  simp only [Conc.awaiterStep] at hs
  cases hai : awaiters[i]? with
  | none => rw [hai] at hs; simp at hs
  | some pc =>
    rw [hai] at hs
    refine ⟨pc, ?_⟩
    cases pc with
    | start =>
      simp only at hs
      cases hd : world.promise.done with
      | some c =>
        rw [hd] at hs; simp only [Option.some.injEq] at hs; subst hs
        exact ⟨_, rfl, rfl, by simp [AwaiterPc.fuel], rfl, rfl⟩
      | none =>
        rw [hd] at hs; simp only [Option.some.injEq] at hs; subst hs
        exact ⟨_, rfl, rfl, by simp [AwaiterPc.fuel], rfl, rfl⟩
    | alloc =>
      simp only [Option.some.injEq] at hs; subst hs
      exact ⟨_, rfl, rfl, by simp [AwaiterPc.fuel], rfl, rfl⟩
    | cas c =>
      simp only at hs
      cases hd : world.promise.done with
      | some c' =>
        rw [hd] at hs; simp only [Option.some.injEq] at hs; subst hs
        exact ⟨_, rfl, rfl, by simp [AwaiterPc.fuel], rfl, rfl⟩
      | none =>
        rw [hd] at hs; simp only [Option.some.injEq] at hs; subst hs
        exact ⟨_, rfl, rfl, by simp [AwaiterPc.fuel], rfl, rfl⟩
    | reload =>
      simp only at hs
      cases hd : world.promise.done with
      | some c' =>
        rw [hd] at hs; simp only [Option.some.injEq] at hs; subst hs
        exact ⟨_, rfl, rfl, by simp [AwaiterPc.fuel], rfl, rfl⟩
      | none =>
        rw [hd] at hs; simp only [Option.some.injEq] at hs; subst hs
        exact ⟨_, rfl, rfl, by simp [AwaiterPc.fuel], rfl, rfl⟩
    | parked ch =>
      simp only at hs
      by_cases hcl : chanClosed world.chans ch = true
      · rw [if_pos hcl] at hs; simp only [Option.some.injEq] at hs; subst hs
        exact ⟨_, rfl, rfl, by simp [AwaiterPc.fuel], rfl, rfl⟩
      · rw [if_neg hcl] at hs; cases hs
    | woken =>
      simp only [Option.some.injEq] at hs; subst hs
      exact ⟨_, rfl, rfl, by simp [AwaiterPc.fuel], rfl, rfl⟩
    | returned value err => cases hs
    | panicked why => cases hs

theorem step_length {cfg cfg' : Conc R E} {tid : Nat} (hs : cfg.step tid = some cfg') :
    cfg'.awaiters.length = cfg.awaiters.length ∧ cfg'.call = cfg.call := by
  cases tid with
  | zero => obtain ⟨h1, h2⟩ := writerStep_awaiters hs; exact ⟨by rw [h1], h2⟩
  | succ i =>
    obtain ⟨pc, pc', -, h1, -, -, h2⟩ := awaiterStep_awaiters hs
    exact ⟨by rw [h1, List.length_set], h2⟩

theorem run_length (sched : List Nat) (cfg : Conc R E) :
    (Conc.run sched cfg).awaiters.length = cfg.awaiters.length ∧
    (Conc.run sched cfg).call = cfg.call := by
  induction sched generalizing cfg with
  | nil => exact ⟨rfl, rfl⟩
  | cons tid rest ih =>
    simp only [Conc.run]
    cases hs : cfg.step tid with
    | none => exact ih cfg
    | some cfg' =>
      obtain ⟨h1, h2⟩ := step_length hs
      obtain ⟨h3, h4⟩ := ih cfg'
      exact ⟨h3.trans h1, h4.trans h2⟩

theorem sum_map_set_lt {α : Type} (f : α → Nat) {l : List α} {i : Nat} {x y : α}
    (h : l[i]? = some x) (hlt : f y < f x) :
    ((l.set i y).map f).sum < (l.map f).sum := by
  induction l generalizing i with
  | nil => simp at h
  | cons a t ih =>
    cases i with
    | zero =>
      simp only [List.getElem?_cons_zero, Option.some.injEq] at h
      subst h
      simp only [List.set_cons_zero, List.map_cons, List.sum_cons]
      omega
    | succ k =>
      simp only [List.getElem?_cons_succ] at h
      have := ih h
      simp only [List.set_cons_succ, List.map_cons, List.sum_cons]
      omega

theorem writerStep_fuel {cfg cfg' : Conc R E} (hs : cfg.writerStep = some cfg') :
    cfg'.writer.fuel < cfg.writer.fuel := by
  obtain ⟨world, call, writer, awaiters⟩ := cfg
  simp only [Conc.writerStep] at hs
  cases writer with
  | start =>
    cases call with
    | Resolve value => simp only [Option.some.injEq] at hs; subst hs; simp [WriterPc.fuel]
    | Reject err => simp only [Option.some.injEq] at hs; subst hs; simp [WriterPc.fuel]
    | Do fn =>
      simp only at hs
      rcases hfn : fn world.env with ⟨res, env⟩
      rw [hfn] at hs
      cases res <;> (simp only [Option.some.injEq] at hs; subst hs; simp [WriterPc.fuel])
  | ran value err => simp only [Option.some.injEq] at hs; subst hs; simp [WriterPc.fuel]
  | stored => simp only [Option.some.injEq] at hs; subst hs; simp [WriterPc.fuel]
  | swapped old =>
    cases old with
    | none => simp only [Option.some.injEq] at hs; subst hs; simp [WriterPc.fuel]
    | some c =>
      simp only at hs
      cases hcl : closeChan world.chans c with
      | returned u chans =>
        rw [hcl] at hs; simp only [Option.some.injEq] at hs; subst hs; simp [WriterPc.fuel]
      | panicked why chans =>
        rw [hcl] at hs; simp only [Option.some.injEq] at hs; subst hs; simp [WriterPc.fuel]
      | blocked chans => rw [hcl] at hs; cases hs
  | finished => cases hs
  | panicked why => cases hs

/-- Every step uses up fuel. -/
theorem step_fuel {cfg cfg' : Conc R E} {tid : Nat} (hs : cfg.step tid = some cfg') :
    cfg'.fuel < cfg.fuel := by
  cases tid with
  | zero =>
    have h1 := writerStep_fuel hs
    have h2 := (writerStep_awaiters hs).1
    simp only [Conc.fuel, h2]
    omega
  | succ i =>
    obtain ⟨pc, pc', h1, h2, h3, h4, -⟩ := awaiterStep_awaiters hs
    have := sum_map_set_lt AwaiterPc.fuel (y := pc') h1 h3
    simp only [Conc.fuel, h2, h4]
    omega

/-- A schedule makes no more steps than there is fuel. -/
theorem moves_le_fuel (sched : List Nat) (cfg : Conc R E) :
    Conc.moves sched cfg ≤ cfg.fuel := by
  induction sched generalizing cfg with
  | nil => simp [Conc.moves]
  | cons tid rest ih =>
    simp only [Conc.moves]
    cases hs : cfg.step tid with
    | none => exact ih cfg
    | some cfg' =>
      have h1 := ih cfg'
      have h2 := step_fuel hs
      simp only
      omega

theorem fuel_init [Inhabited R] (call : WriteCall R E) (k : Nat) (env : E) :
    (Conc.init call k env).fuel = 4 + 6 * k := by
  simp [Conc.fuel, Conc.init, WriterPc.fuel, AwaiterPc.fuel, Nat.mul_comm]

/-- No deadlock: when no goroutine can move, the resolving call has returned
and every awaiter has returned the stored pair. -/
theorem quiet_all_returned [Inhabited R] {tv : R} {te : GoErr} {env0 : E} {cfg : Conc R E}
    (h : Inv tv te env0 cfg) (hq : ∀ tid, cfg.step tid = none) :
    cfg.writer = .finished ∧ ∀ a ∈ cfg.awaiters, a = .returned tv te := by
  obtain ⟨world, call, writer, awaiters⟩ := cfg
  obtain ⟨ht, hw, ha⟩ := h
  simp only at ht hw ha
  have hfin : writer = .finished := by
    have h0 := hq 0
    simp only [Conc.step, Conc.writerStep] at h0
    cases writer with
    | start =>
      cases call with
      | Resolve value => simp at h0
      | Reject err => simp at h0
      | Do fn =>
        simp only at h0
        rcases hfn : fn world.env with ⟨res, env⟩
        rw [hfn] at h0
        cases res <;> simp at h0
    | ran value err => simp at h0
    | stored => simp at h0
    | swapped old =>
      cases old with
      | none => simp at h0
      | some c =>
        cases c with
        | closedChan => simp [closeChan] at h0
        | made id =>
          simp only [closeChan] at h0
          by_cases hcl : world.chans.getD id false = true
          · simp only [hcl, ↓reduceIte] at h0; cases h0
          · simp only [hcl, Bool.false_eq_true, ↓reduceIte] at h0; cases h0
    | finished => rfl
    | panicked why => exact hw.elim
  subst hfin
  refine ⟨rfl, ?_⟩
  intro a hmem
  obtain ⟨i, hi⟩ := List.mem_iff_getElem?.mp hmem
  have hs := hq (i + 1)
  have hok := ha a hmem
  simp only [Conc.step, Conc.awaiterStep, hi] at hs
  cases a with
  | start => cases hd : world.promise.done <;> simp [hd] at hs
  | alloc => simp at hs
  | cas c => cases hd : world.promise.done <;> simp [hd] at hs
  | reload => cases hd : world.promise.done <;> simp [hd] at hs
  | parked ch =>
    have hcl : chanClosed world.chans ch = true := by
      cases ch with
      | closedChan => rfl
      | made id => exact hok.2
    simp [hcl] at hs
  | woken => simp at hs
  | returned value err => rw [hok.1, hok.2]
  | panicked why => exact hok.elim

/-- No livelock: from every state of the invariant some schedule brings every
awaiter to return the stored pair. -/
theorem exists_completion [Inhabited R] {tv : R} {te : GoErr} {env0 : E} (n : Nat) :
    ∀ cfg : Conc R E, cfg.fuel ≤ n → Inv tv te env0 cfg →
      ∃ rest, (Conc.run rest cfg).writer = .finished ∧
        ∀ a ∈ (Conc.run rest cfg).awaiters, a = .returned tv te := by
  induction n with
  | zero =>
    intro cfg hn h
    refine ⟨[], quiet_all_returned h ?_⟩
    intro tid
    cases hs : cfg.step tid with
    | none => exact hs
    | some cfg' => have := step_fuel hs; omega
  | succ m ih =>
    intro cfg hn h
    by_cases hq : ∀ tid, cfg.step tid = none
    · exact ⟨[], quiet_all_returned h hq⟩
    · simp only [not_forall] at hq
      obtain ⟨tid, htid⟩ := hq
      cases hs : cfg.step tid with
      | none => exact absurd hs htid
      | some cfg' =>
        have hf := step_fuel hs
        obtain ⟨rest, hr⟩ := ih cfg' (by omega) (Inv_step h hs)
        refine ⟨tid :: rest, ?_⟩
        simp only [Conc.run, hs, Option.getD_some]
        exact hr

/-- What `Try` sees while the goroutines run: not ready before the swap of the
resolving call, the stored pair from the swap on. -/
theorem Try_of_Inv [Inhabited R] {tv : R} {te : GoErr} {env0 : E} {cfg : Conc R E}
    (h : Inv tv te env0 cfg) :
    Future.Try .obj cfg.world =
      .returned (if cfg.writer.completed then (tv, te) else (default, ErrNotReady)) cfg.world := by
  obtain ⟨world, call, writer, awaiters⟩ := cfg
  obtain ⟨ht, hw, ha⟩ := h
  simp only at ht hw ha ⊢
  have hopen : PreSwap world → doneClosed world = false := by
    rintro ⟨h1, h2, -⟩
    unfold doneClosed
    cases hd : world.promise.done with
    | none => rfl
    | some c =>
      cases c with
      | closedChan => exact absurd hd h1
      | made id => exact h2 id
  have hclosed : world.promise.done = some .closedChan → doneClosed world = true := by
    intro hd; simp [doneClosed, hd, chanClosed]
  cases writer with
  | start => rw [Try_of_open (hopen hw.2.2.2)]; rfl
  | ran value err => rw [Try_of_open (hopen hw.2.2.2)]; rfl
  | stored => rw [Try_of_open (hopen hw.2.2.2)]; rfl
  | swapped old => rw [Try_of_closed (hclosed hw.2.2.2.1), hw.1, hw.2.1]; rfl
  | finished => rw [Try_of_closed (hclosed hw.2.2.2), hw.1, hw.2.1]; rfl
  | panicked why => exact hw.elim

/-- Whether the resolving call has not made its first step. -/
theorem env_of_Inv [Inhabited R] {tv : R} {te : GoErr} {env0 : E} {cfg : Conc R E}
    (h : Inv tv te env0 cfg) :
    cfg.world.env = (match cfg.writer with
      | .start => env0
      | _ => cfg.call.envAfter env0) := by
  obtain ⟨world, call, writer, awaiters⟩ := cfg
  obtain ⟨ht, hw, ha⟩ := h
  simp only at ht hw ha ⊢
  cases writer with
  | start => exact hw.2.2.1
  | ran value err => exact hw.2.2.1
  | stored => exact hw.2.2.1
  | swapped old => exact hw.2.2.1
  | finished => exact hw.2.2.1
  | panicked why => exact hw.elim

/-- The steps of the resolving call, run with no other goroutine moving, are
the call: they end in the state and with the outcome of `Resolve`, `Reject` or
`Do`. -/
theorem writer_alone (call : WriteCall R E) (w : World R E) (aw : List (AwaiterPc R)) :
    match call.run .obj w with
    | .returned _ s =>
      (Conc.run [0, 0, 0, 0] ⟨w, call, .start, aw⟩).world = s ∧
      (Conc.run [0, 0, 0, 0] ⟨w, call, .start, aw⟩).writer = .finished
    | .panicked why s =>
      (Conc.run [0, 0, 0, 0] ⟨w, call, .start, aw⟩).world = s ∧
      (Conc.run [0, 0, 0, 0] ⟨w, call, .start, aw⟩).writer = .panicked why
    | .blocked _ => False := by
  obtain ⟨chans, ⟨done, value, err⟩, env⟩ := w
  cases call with
  | Resolve v =>
    cases done with
    | none => simp [WriteCall.run, Promise.Resolve, Promise.close, Conc.run, Conc.step,
        Conc.writerStep]
    | some c =>
      cases c with
      | closedChan => simp [WriteCall.run, Promise.Resolve, Promise.close, Conc.run, Conc.step,
          Conc.writerStep, closeChan]
      | made id =>
        by_cases hcl : chans.getD id false = true
        · simp only [WriteCall.run, Promise.Resolve, Promise.close, Conc.run, Conc.step,
            Conc.writerStep, closeChan, hcl, ↓reduceIte, Option.getD_some, Option.getD_none]
          exact ⟨trivial, trivial⟩
        · simp only [WriteCall.run, Promise.Resolve, Promise.close, Conc.run, Conc.step,
            Conc.writerStep, closeChan, hcl, Bool.false_eq_true, ↓reduceIte, Option.getD_some,
            Option.getD_none]
          exact ⟨trivial, trivial⟩
  | Reject e =>
    cases done with
    | none => simp [WriteCall.run, Promise.Reject, Promise.close, Conc.run, Conc.step,
        Conc.writerStep]
    | some c =>
      cases c with
      | closedChan => simp [WriteCall.run, Promise.Reject, Promise.close, Conc.run, Conc.step,
          Conc.writerStep, closeChan]
      | made id =>
        by_cases hcl : chans.getD id false = true
        · simp only [WriteCall.run, Promise.Reject, Promise.close, Conc.run, Conc.step,
            Conc.writerStep, closeChan, hcl, ↓reduceIte, Option.getD_some, Option.getD_none]
          exact ⟨trivial, trivial⟩
        · simp only [WriteCall.run, Promise.Reject, Promise.close, Conc.run, Conc.step,
            Conc.writerStep, closeChan, hcl, Bool.false_eq_true, ↓reduceIte, Option.getD_some,
            Option.getD_none]
          exact ⟨trivial, trivial⟩
  | Do fn =>
    rcases hfn : fn env with ⟨res, env'⟩
    cases res with
    | panics msg =>
      simp [WriteCall.run, Promise.Do, Conc.run, Conc.step, Conc.writerStep, hfn]
    | returns v e =>
      cases done with
      | none => simp [WriteCall.run, Promise.Do, Promise.close, Conc.run, Conc.step,
          Conc.writerStep, hfn]
      | some c =>
        cases c with
        | closedChan => simp [WriteCall.run, Promise.Do, Promise.close, Conc.run, Conc.step,
            Conc.writerStep, closeChan, hfn]
        | made id =>
          by_cases hcl : chans.getD id false = true
          · simp only [WriteCall.run, Promise.Do, Promise.close, Conc.run, Conc.step,
              Conc.writerStep, closeChan, hcl, hfn, ↓reduceIte, Option.getD_some,
              Option.getD_none]
            exact ⟨trivial, trivial⟩
          · simp only [WriteCall.run, Promise.Do, Promise.close, Conc.run, Conc.step,
              Conc.writerStep, closeChan, hcl, hfn, Bool.false_eq_true, ↓reduceIte,
              Option.getD_some, Option.getD_none]
            exact ⟨trivial, trivial⟩

/-- The steps of an awaiter, run with no other goroutine moving, are `Await`
with a context that is not done: the awaiter returns what `Await` returns, or
stays parked on the handle of `Done` where `Await` parks, in the same state. -/
theorem awaiter_alone [Inhabited R] (call : WriteCall R E) (wr : WriterPc R) (w : World R E)
    (pick : Nat) :
    match Future.Await (Promise.Future .obj) { err := none } pick w with
    | .returned r s =>
      (Conc.run [1, 1, 1, 1, 1, 1] ⟨w, call, wr, [.start]⟩).world = s ∧
      (Conc.run [1, 1, 1, 1, 1, 1] ⟨w, call, wr, [.start]⟩).awaiters = [.returned r.1 r.2]
    | .blocked s =>
      (Conc.run [1, 1, 1, 1, 1, 1] ⟨w, call, wr, [.start]⟩).world = s ∧
      (Conc.run [1, 1, 1, 1, 1, 1] ⟨w, call, wr, [.start]⟩).awaiters
        = [.parked (doneDone w).1]
    | .panicked _ _ => False := by
  obtain ⟨chans, ⟨done, value, err⟩, env⟩ := w
  cases done with
  | none =>
    simp [Future.Await, Future.Done, Promise.Future, doneDone, chanClosed, Conc.run, Conc.step,
      Conc.awaiterStep, Conc.setAwaiter]
  | some c =>
    by_cases hcl : chanClosed chans c = true
    · simp [Future.Await, Future.Done, Promise.Future, doneDone, hcl, awaitResult, Conc.run,
        Conc.step, Conc.awaiterStep, Conc.setAwaiter]
    · simp [Future.Await, Future.Done, Promise.Future, doneDone, hcl, awaitResult, Conc.run,
        Conc.step, Conc.awaiterStep, Conc.setAwaiter]

/-- What the invariant says of the awaiters: none has panicked, and one that
has returned has returned the stored pair. -/
theorem awaiters_of_Inv [Inhabited R] {tv : R} {te : GoErr} {env0 : E} {cfg : Conc R E}
    (h : Inv tv te env0 cfg) :
    (∀ a ∈ cfg.awaiters, ∀ v' e', a = .returned v' e' → v' = tv ∧ e' = te) ∧
    (∀ a ∈ cfg.awaiters, ∀ why, a ≠ .panicked why) ∧
    (∀ why, cfg.writer ≠ .panicked why) := by
  refine ⟨?_, ?_, ?_⟩
  · intro a ha v' e' heq
    have := h.awaiters a ha
    rw [heq] at this
    exact this
  · intro a ha why heq
    have := h.awaiters a ha
    rw [heq] at this
    exact this
  · intro why heq
    have := h.writer
    rw [heq] at this
    exact this

/-- From every reachable state some schedule brings all `k` awaiters to return
the stored pair. -/
theorem exists_all_returned [Inhabited R] {tv : R} {te : GoErr} {env0 : E} {cfg : Conc R E}
    {k : Nat} (h : Inv tv te env0 cfg) (hk : cfg.awaiters.length = k) :
    ∃ rest, (Conc.run rest cfg).awaiters = List.replicate k (.returned tv te) := by
  obtain ⟨rest, -, hr⟩ := exists_completion cfg.fuel cfg (Nat.le_refl _) h
  refine ⟨rest, List.eq_replicate_iff.mpr ⟨?_, hr⟩⟩
  rw [(run_length rest cfg).1, hk]

/-- C14: `k` goroutines call `Await`, with a context that is never done, on the
future of one fresh promise while another goroutine calls `Resolve(v)`.  Under
every schedule of their atomic steps: an awaiter that has returned has
returned `(v, nil)`, and no goroutine has panicked; when no goroutine can move
any more, all `k` awaiters have returned `(v, nil)`; a schedule makes at most
`4 + 6k` steps; and every schedule can be continued until all `k` awaiters
have returned `(v, nil)`. -/
theorem fan_out [Inhabited R] (v : R) (k : Nat) (env : E) (sched : List Nat) :
    (∀ a ∈ (Conc.run sched (Conc.init (.Resolve v) k env)).awaiters,
      ∀ v' e', a = .returned v' e' → v' = v ∧ e' = none) ∧
    (∀ a ∈ (Conc.run sched (Conc.init (.Resolve v) k env)).awaiters,
      ∀ why, a ≠ .panicked why) ∧
    (∀ why, (Conc.run sched (Conc.init (.Resolve v) k env)).writer ≠ .panicked why) ∧
    ((∀ tid, (Conc.run sched (Conc.init (.Resolve v) k env)).step tid = none) →
      (Conc.run sched (Conc.init (.Resolve v) k env)).awaiters
        = List.replicate k (.returned v none)) ∧
    Conc.moves sched (Conc.init (.Resolve v) k env) ≤ 4 + 6 * k ∧
    ∃ rest, (Conc.run (sched ++ rest) (Conc.init (.Resolve v) k env)).awaiters
      = List.replicate k (.returned v none) := by
  have h0 : Inv v none env (Conc.init (.Resolve v) k env) := Inv_init _ k env v none rfl
  have h := Inv_run sched h0
  have hlen : (Conc.run sched (Conc.init (.Resolve v) k env)).awaiters.length = k := by
    rw [(run_length sched _).1]; simp [Conc.init]
  obtain ⟨h1, h2, h3⟩ := awaiters_of_Inv h
  refine ⟨h1, h2, h3, ?_, ?_, ?_⟩
  · intro hq
    exact List.eq_replicate_iff.mpr ⟨hlen, (quiet_all_returned h hq).2⟩
  · have := moves_le_fuel sched (Conc.init (.Resolve v) k env)
    rw [fuel_init] at this
    exact this
  · obtain ⟨rest, hr⟩ := exists_all_returned h hlen
    exact ⟨rest, by rw [run_append]; exact hr⟩

/-- C13 as stated fails: the awaiter of `TestAsyncValue` has parked on its
handle, the worker has run `fn`, stored the pair and swapped `closedChan` in,
and has not yet closed the handle: the worker's `Do` has not finished, the
awaiter is still parked on an open channel, and `Try` already returns
`(1, nil)`, not `ErrNotReady`. -/
theorem Try_ready_before_worker_finished_counterexample :
    (Conc.run [1, 1, 1, 0, 0, 0]
      (NewAsync (fun calls : Nat => (FnResult.returns 1 none, calls + 1)) 1 0).2).writer
      = .swapped (some (.made 0)) ∧
    (Conc.run [1, 1, 1, 0, 0, 0]
      (NewAsync (fun calls : Nat => (FnResult.returns 1 none, calls + 1)) 1 0).2).awaiters
      = [.parked (.made 0)] ∧
    chanClosed
      (Conc.run [1, 1, 1, 0, 0, 0]
        (NewAsync (fun calls : Nat => (FnResult.returns 1 none, calls + 1)) 1 0).2).world.chans
      (.made 0) = false ∧
    Future.Try (NewAsync (fun calls : Nat => (FnResult.returns 1 none, calls + 1)) 1 0).1
      (Conc.run [1, 1, 1, 0, 0, 0]
        (NewAsync (fun calls : Nat => (FnResult.returns 1 none, calls + 1)) 1 0).2).world
      = .returned (1, none)
        { chans := [false], promise := ⟨some .closedChan, 1, none⟩, env := 1 } ∧
    Future.Try (NewAsync (fun calls : Nat => (FnResult.returns 1 none, calls + 1)) 1 0).1
      (Conc.run [1, 1, 1, 0, 0, 0]
        (NewAsync (fun calls : Nat => (FnResult.returns 1 none, calls + 1)) 1 0).2).world
      ≠ .returned (default, ErrNotReady)
        { chans := [false], promise := ⟨some .closedChan, 1, none⟩, env := 1 } :=
  ⟨by decide, by decide, by decide, by decide, by decide⟩

/-- C13 amended: `NewAsync(fn)` returns the future of a fresh promise with `fn` not
run: the caller's state is untouched and the new goroutine has not started.
With `fn` returning `(v, e)`, under every schedule of the atomic steps of the
worker's `Do(fn)` and of `k` `Await` calls with a context that is never done:
`fn` has run once when the worker has started and not at all before; `Try`
returns `ErrNotReady` until the worker has swapped `closedChan` in, and
`(v, e)` from then on, which is before the worker has closed the wait handle
and finished; an awaiter that has returned has returned `(v, e)`,
no goroutine has panicked; when no goroutine can move any more all awaiters
have returned `(v, e)`; a schedule makes at most `4 + 6k` steps and can be
continued until all awaiters have returned `(v, e)`. -/
theorem NewAsync_completes [Inhabited R] (fn : Func R E) (k : Nat) (env : E) (v : R)
    (e : GoErr) (env' : E) (hfn : fn env = (.returns v e, env')) (sched : List Nat) :
    (NewAsync fn k env).1 = Promise.Future .obj ∧
    (NewAsync fn k env).2.world = World.fresh env ∧
    (NewAsync fn k env).2.writer = .start ∧
    (Conc.run sched (NewAsync fn k env).2).world.env =
      (match (Conc.run sched (NewAsync fn k env).2).writer with
        | .start => env
        | _ => env') ∧
    Future.Try (NewAsync fn k env).1 (Conc.run sched (NewAsync fn k env).2).world =
      .returned
        (if (Conc.run sched (NewAsync fn k env).2).writer.completed then (v, e)
          else (default, ErrNotReady))
        (Conc.run sched (NewAsync fn k env).2).world ∧
    (∀ a ∈ (Conc.run sched (NewAsync fn k env).2).awaiters,
      ∀ v' e', a = .returned v' e' → v' = v ∧ e' = e) ∧
    (∀ a ∈ (Conc.run sched (NewAsync fn k env).2).awaiters, ∀ why, a ≠ .panicked why) ∧
    (∀ why, (Conc.run sched (NewAsync fn k env).2).writer ≠ .panicked why) ∧
    ((∀ tid, (Conc.run sched (NewAsync fn k env).2).step tid = none) →
      (Conc.run sched (NewAsync fn k env).2).writer = .finished ∧
      (Conc.run sched (NewAsync fn k env).2).awaiters
        = List.replicate k (.returned v e)) ∧
    Conc.moves sched (NewAsync fn k env).2 ≤ 4 + 6 * k ∧
    ∃ rest, (Conc.run (sched ++ rest) (NewAsync fn k env).2).awaiters
      = List.replicate k (.returned v e) := by
  have ht : (WriteCall.Do fn).target env = some (v, e) := by
    simp [WriteCall.target, hfn]
  have h0 : Inv v e env (NewAsync fn k env).2 := Inv_init _ k env v e ht
  have h := Inv_run sched h0
  have hlen : (Conc.run sched (NewAsync fn k env).2).awaiters.length = k := by
    rw [(run_length sched _).1]; simp [NewAsync, Conc.init]
  have hcall : (Conc.run sched (NewAsync fn k env).2).call = .Do fn :=
    (run_length sched _).2
  obtain ⟨h1, h2, h3⟩ := awaiters_of_Inv h
  refine ⟨rfl, rfl, rfl, ?_, Try_of_Inv h, h1, h2, h3, ?_, ?_, ?_⟩
  · rw [env_of_Inv h, hcall]
    simp only [WriteCall.envAfter, hfn]
  · intro hq
    obtain ⟨hw, ha⟩ := quiet_all_returned h hq
    exact ⟨hw, List.eq_replicate_iff.mpr ⟨hlen, ha⟩⟩
  · have := moves_le_fuel sched (NewAsync fn k env).2
    rw [NewAsync, fuel_init] at this
    exact this
  · obtain ⟨rest, hr⟩ := exists_all_returned h hlen
    exact ⟨rest, by rw [run_append]; exact hr⟩

/-- Witness of C13 amended: the function of `TestAsyncValue`, made to count its runs in
the caller's state, and one awaiter.  After the awaiter has parked and the
worker has run to its end the count is 1 and `Try` returns `(1, nil)`; while
the worker has only run `fn`, `Try` returns `ErrNotReady`; the schedule makes
at most 10 steps. -/
theorem NewAsync_completes_witness :
    (Conc.run [1, 1, 1, 0, 0, 0, 0, 1, 1, 1]
      (NewAsync (fun calls : Nat => (FnResult.returns 1 none, calls + 1)) 1 0).2).world.env
      = 1 ∧
    Future.Try (NewAsync (fun calls : Nat => (FnResult.returns 1 none, calls + 1)) 1 0).1
      (Conc.run [1, 1, 1, 0, 0, 0, 0, 1, 1, 1]
        (NewAsync (fun calls : Nat => (FnResult.returns 1 none, calls + 1)) 1 0).2).world
      = .returned (1, none)
        (Conc.run [1, 1, 1, 0, 0, 0, 0, 1, 1, 1]
          (NewAsync (fun calls : Nat => (FnResult.returns 1 none, calls + 1)) 1 0).2).world ∧
    Future.Try (NewAsync (fun calls : Nat => (FnResult.returns 1 none, calls + 1)) 1 0).1
      (Conc.run [1, 1, 1, 0]
        (NewAsync (fun calls : Nat => (FnResult.returns 1 none, calls + 1)) 1 0).2).world
      = .returned (default, ErrNotReady)
        (Conc.run [1, 1, 1, 0]
          (NewAsync (fun calls : Nat => (FnResult.returns 1 none, calls + 1)) 1 0).2).world ∧
    Conc.moves [1, 1, 1, 0, 0, 0, 0, 1, 1, 1]
      (NewAsync (fun calls : Nat => (FnResult.returns 1 none, calls + 1)) 1 0).2 ≤ 4 + 6 * 1 :=
  ⟨(NewAsync_completes (fun calls : Nat => (FnResult.returns 1 none, calls + 1)) 1 0 1 none 1
      rfl [1, 1, 1, 0, 0, 0, 0, 1, 1, 1]).2.2.2.1.trans (by decide),
   (NewAsync_completes (fun calls : Nat => (FnResult.returns 1 none, calls + 1)) 1 0 1 none 1
      rfl [1, 1, 1, 0, 0, 0, 0, 1, 1, 1]).2.2.2.2.1.trans (by decide),
   (NewAsync_completes (fun calls : Nat => (FnResult.returns 1 none, calls + 1)) 1 0 1 none 1
      rfl [1, 1, 1, 0]).2.2.2.2.1.trans (by decide),
   (NewAsync_completes (fun calls : Nat => (FnResult.returns 1 none, calls + 1)) 1 0 1 none 1
      rfl [1, 1, 1, 0, 0, 0, 0, 1, 1, 1]).2.2.2.2.2.2.2.2.2.1⟩

/-! ## Lemmas on the group -/

/-- `TestDoAsync`, evaluated: one task that fails with `errTest`; before it
completes `Wait` blocks, after it `Wait` returns `errTest` and `Try` on the
task's future returns `(0, errTest)`. -/
theorem TestDoAsync_evaluated :
    Group.Wait
        (launchAll () [fun env => (FnResult.returns (0 : Nat) errTest, env)]
          GroupWorld.zero).group
      = .blocked { outstanding := 1, firstErr := none } ∧
    Group.Wait
        (GroupWorld.completeAll [0]
          (launchAll () [fun env => (FnResult.returns (0 : Nat) errTest, env)]
            GroupWorld.zero)).group
      = .returned errTest { outstanding := 0, firstErr := errTest } ∧
    (GroupWorld.completeAll [0]
        (launchAll () [fun env => (FnResult.returns (0 : Nat) errTest, env)]
          GroupWorld.zero)).tasks.map (fun t => Future.Try (Promise.Future .obj) t.world)
      = [.returned (0, errTest) ⟨[], ⟨some .closedChan, 0, errTest⟩, ()⟩] :=
  ⟨rfl, rfl, rfl⟩

theorem Do_fresh [Inhabited R] {fn : Func R E} {env env' : E} {v : R} {e : GoErr}
    (hfn : fn env = (.returns v e, env')) :
    Promise.Do .obj fn (World.fresh env)
      = .returned () { chans := [], promise := ⟨some .closedChan, v, e⟩, env := env' } := by
  simp [Promise.Do, World.fresh, Promise.zero, hfn, Promise.close]

theorem launchAll_eq [Inhabited R] (env : E) (fns : List (Func R E)) (gw : GroupWorld R E) :
    launchAll env fns gw =
      { group := { gw.group with outstanding := gw.group.outstanding + fns.length },
        tasks := gw.tasks ++
          fns.map (fun fn => { fn := fn, world := World.fresh env, pc := .launched }) } := by
  induction fns generalizing gw with
  | nil => simp [launchAll]
  | cons fn rest ih =>
    simp only [launchAll, DoAsync, ih, List.length_cons, List.map_cons, List.append_assoc,
      List.singleton_append]
    congr 2
    omega

theorem sum_map_set_add {α : Type} (f : α → Nat) {l : List α} {i : Nat} {x : α} (y : α)
    (h : l[i]? = some x) :
    ((l.set i y).map f).sum + f x = (l.map f).sum + f y := by
  induction l generalizing i with
  | nil => simp at h
  | cons a t ih =>
    cases i with
    | zero =>
      simp only [List.getElem?_cons_zero, Option.some.injEq] at h
      subst h
      simp only [List.set_cons_zero, List.map_cons, List.sum_cons]
      omega
    | succ k =>
      simp only [List.getElem?_cons_succ] at h
      have := ih h
      simp only [List.set_cons_succ, List.map_cons, List.sum_cons]
      omega

theorem commit_none (g : Group) : (g.commit none).firstErr = g.firstErr := by
  cases hg : g.firstErr <;> simp [Group.commit, hg]

/-- Under the invariant the completion of task `i` completes a launched task
with the pair its function returns, or changes nothing because the task is
already completed or does not exist. -/
theorem complete_cases [Inhabited R] {env : E} {j : Nat} {failure : GoError}
    {gw : GroupWorld R E} (h : GroupInv env j failure gw) (i : Nat) :
    (∃ fn v env', gw.tasks[i]? = some { fn := fn, world := World.fresh env, pc := .launched } ∧
      fn env = (.returns v (if i = j then some failure else none), env') ∧
      gw.complete i =
        { group := { gw.group.commit (if i = j then some failure else none) with
                     outstanding := gw.group.outstanding - 1 },
          tasks := gw.tasks.set i
            { fn := fn,
              world := ⟨[], ⟨some .closedChan, v, if i = j then some failure else none⟩, env'⟩,
              pc := .completed } }) ∨
    (gw.complete i = gw ∧ ∀ t, gw.tasks[i]? = some t → t.pc = .completed) := by
  cases hti : gw.tasks[i]? with
  | none =>
    right
    exact ⟨by simp [GroupWorld.complete, hti], fun t ht => by cases ht⟩
  | some t =>
    obtain ⟨hok, v, env', hfn⟩ := h.tasks i t hti
    obtain ⟨fn, w, pc⟩ := t
    simp only at hfn
    rcases hok with ⟨hpc, hw⟩ | ⟨hpc, -⟩
    · simp only at hpc hw
      subst hpc hw
      left
      refine ⟨fn, v, env', rfl, hfn, ?_⟩
      simp only [GroupWorld.complete, hti, Do_fresh hfn]
    · simp only at hpc
      subst hpc
      right
      exact ⟨by simp [GroupWorld.complete, hti], fun t ht => by cases ht; rfl⟩

/-- The completion of a task keeps the invariant of the group. -/
theorem GroupInv_complete [Inhabited R] {env : E} {j : Nat} {failure : GoError}
    {gw : GroupWorld R E} (h : GroupInv env j failure gw) (i : Nat) :
    GroupInv env j failure (gw.complete i) := by
  rcases complete_cases h i with ⟨fn, v, env', hti, hfn, heq⟩ | ⟨heq, -⟩
  · rw [heq]
    have hlt : i < gw.tasks.length := by
      by_contra hge
      rw [List.getElem?_eq_none (Nat.le_of_not_lt hge)] at hti
      cases hti
    refine ⟨?_, ?_, ?_⟩
    · intro i' t ht
      simp only [List.getElem?_set] at ht
      by_cases hi : i = i'
      · subst hi
        simp only [hlt, ↓reduceIte, Option.some.injEq] at ht
        subst ht
        exact ⟨Or.inr ⟨rfl, v, _, env', hfn, rfl⟩, v, env', hfn⟩
      · simp only [hi, ↓reduceIte] at ht
        exact h.tasks i' t ht
    · have := sum_map_set_add (fun t : Task R E => if t.pc = .launched then 1 else 0)
        ({ fn := fn,
           world := ⟨[], ⟨some .closedChan, v, if i = j then some failure else none⟩, env'⟩,
           pc := .completed } : Task R E) hti
      simp only [launchedCount]
      simp only [↓reduceIte, add_zero] at this
      have hc := h.count
      simp only [launchedCount] at hc
      simp only [reduceCtorEq, ↓reduceIte] at this
      omega
    · simp only [List.getElem?_set]
      by_cases hi : i = j
      · subst hi
        have hcell := h.cell
        simp only [hti] at hcell
        simp only [hlt, ↓reduceIte, Group.commit, hcell]
        simp
      · have hcell := h.cell
        simp only [hi, ↓reduceIte, commit_none]
        exact hcell
  · rw [heq]; exact h

theorem GroupInv_completeAll [Inhabited R] {env : E} {j : Nat} {failure : GoError}
    (order : List Nat) {gw : GroupWorld R E} (h : GroupInv env j failure gw) :
    GroupInv env j failure (gw.completeAll order) := by
  induction order generalizing gw with
  | nil => exact h
  | cons i rest ih => exact ih (GroupInv_complete h i)

theorem launchedCount_launched [Inhabited R] (env : E) (fns : List (Func R E)) :
    launchedCount (fns.map
      (fun fn => ({ fn := fn, world := World.fresh env, pc := .launched } : Task R E)))
      = fns.length := by
  induction fns with
  | nil => rfl
  | cons fn rest ih =>
    simp only [launchedCount, List.map_cons, List.sum_cons, List.length_cons] at ih ⊢
    simp only [↓reduceIte, ih]
    omega

/-- After `DoAsync` has been called for every function the invariant holds. -/
theorem GroupInv_launchAll [Inhabited R] (fns : List (Func R E)) (env : E) (j : Nat)
    (failure : GoError)
    (hret : ∀ (i : Nat) (fn : Func R E), fns[i]? = some fn →
      ∃ v env', fn env = (.returns v (if i = j then some failure else none), env')) :
    GroupInv env j failure (launchAll env fns GroupWorld.zero) := by
  rw [launchAll_eq]
  simp only [GroupWorld.zero, List.nil_append, Nat.zero_add]
  refine ⟨?_, ?_, ?_⟩
  · intro i t ht
    simp only [List.getElem?_map] at ht
    cases hf : fns[i]? with
    | none => rw [hf] at ht; cases ht
    | some fn =>
      rw [hf] at ht
      simp only [Option.map_some', Option.some.injEq] at ht
      subst ht
      exact ⟨Or.inl ⟨rfl, rfl⟩, hret i fn hf⟩
  · exact (launchedCount_launched env fns).symm
  · simp only [List.getElem?_map]
    cases fns[j]? <;> rfl

theorem complete_length [Inhabited R] {env : E} {j : Nat} {failure : GoError}
    {gw : GroupWorld R E} (h : GroupInv env j failure gw) (i : Nat) :
    (gw.complete i).tasks.length = gw.tasks.length := by
  rcases complete_cases h i with ⟨fn, v, env', -, -, heq⟩ | ⟨heq, -⟩
  · rw [heq]; simp
  · rw [heq]

theorem completeAll_length [Inhabited R] {env : E} {j : Nat} {failure : GoError}
    (order : List Nat) {gw : GroupWorld R E} (h : GroupInv env j failure gw) :
    (gw.completeAll order).tasks.length = gw.tasks.length := by
  induction order generalizing gw with
  | nil => rfl
  | cons i rest ih =>
    exact (ih (GroupInv_complete h i)).trans (complete_length h i)

/-- A completed task stays completed. -/
theorem completed_persists [Inhabited R] {env : E} {j : Nat} {failure : GoError}
    {gw : GroupWorld R E} (h : GroupInv env j failure gw) (i0 : Nat) {i : Nat}
    (hc : ∃ t, gw.tasks[i]? = some t ∧ t.pc = .completed) :
    ∃ t, (gw.complete i0).tasks[i]? = some t ∧ t.pc = .completed := by
  rcases complete_cases h i0 with ⟨fn, v, env', hti, -, heq⟩ | ⟨heq, -⟩
  · rw [heq]
    obtain ⟨t, ht, hpc⟩ := hc
    by_cases hi : i0 = i
    · subst hi
      rw [hti] at ht
      simp only [Option.some.injEq] at ht
      subst ht
      cases hpc
    · exact ⟨t, by simp only [List.getElem?_set, hi, ↓reduceIte]; exact ht, hpc⟩
  · rw [heq]; exact hc

theorem completed_persists_all [Inhabited R] {env : E} {j : Nat} {failure : GoError}
    (order : List Nat) {gw : GroupWorld R E} (h : GroupInv env j failure gw) {i : Nat}
    (hc : ∃ t, gw.tasks[i]? = some t ∧ t.pc = .completed) :
    ∃ t, (gw.completeAll order).tasks[i]? = some t ∧ t.pc = .completed := by
  induction order generalizing gw with
  | nil => exact hc
  | cons i0 rest ih => exact ih (GroupInv_complete h i0) (completed_persists h i0 hc)

/-- The completion of task `i` leaves it completed. -/
theorem complete_self [Inhabited R] {env : E} {j : Nat} {failure : GoError}
    {gw : GroupWorld R E} (h : GroupInv env j failure gw) {i : Nat}
    (hlt : i < gw.tasks.length) :
    ∃ t, (gw.complete i).tasks[i]? = some t ∧ t.pc = .completed := by
  rcases complete_cases h i with ⟨fn, v, env', -, -, heq⟩ | ⟨heq, hall⟩
  · rw [heq]
    simp only [List.getElem?_set, hlt, ↓reduceIte]
    exact ⟨_, rfl, rfl⟩
  · rw [heq]
    exact ⟨gw.tasks[i], by simp [hlt], hall _ (by simp [hlt])⟩

/-- Every task named in the order of completion is completed at the end. -/
theorem completed_of_mem [Inhabited R] {env : E} {j : Nat} {failure : GoError}
    (order : List Nat) {gw : GroupWorld R E} (h : GroupInv env j failure gw) {i : Nat}
    (hmem : i ∈ order) (hlt : i < gw.tasks.length) :
    ∃ t, (gw.completeAll order).tasks[i]? = some t ∧ t.pc = .completed := by
  induction order generalizing gw with
  | nil => cases hmem
  | cons i0 rest ih =>
    simp only [GroupWorld.completeAll]
    by_cases hi : i = i0
    · subst hi
      exact completed_persists_all rest (GroupInv_complete h i) (complete_self h hlt)
    · have hmem' : i ∈ rest := by
        rcases List.mem_cons.mp hmem with h1 | h1
        · exact absurd h1 hi
        · exact h1
      exact ih (GroupInv_complete h i0) hmem' (by rw [complete_length h i0]; exact hlt)

theorem launchedCount_zero {tasks : List (Task R E)} (h : ∀ t ∈ tasks, t.pc = .completed) :
    launchedCount tasks = 0 := by
  induction tasks with
  | nil => rfl
  | cons a t ih =>
    have ha := h a (List.mem_cons_self a t)
    have := ih (fun x hx => h x (List.mem_cons_of_mem a hx))
    simp only [launchedCount, List.map_cons, List.sum_cons] at this ⊢
    simp [ha, this]

theorem launchedCount_pos {tasks : List (Task R E)} (h : ∃ t ∈ tasks, t.pc = .launched) :
    0 < launchedCount tasks := by
  induction tasks with
  | nil => obtain ⟨t, ht, -⟩ := h; cases ht
  | cons a rest ih =>
    obtain ⟨t, ht, hpc⟩ := h
    simp only [launchedCount, List.map_cons, List.sum_cons]
    rcases List.mem_cons.mp ht with h1 | h1
    · subst h1; simp [hpc]
    · have := ih ⟨t, h1, hpc⟩
      simp only [launchedCount] at this
      omega

/-- C15: `DoAsync` is called on one zero `Group` for each of `N` functions, all
returning, of which exactly one, the one of task `j`, returns a non-nil error,
`failure`.  For every order in which the tasks complete: while a task is still
launched `Wait` blocks; once all are completed `Wait` returns `failure`, and
`Try` on the future of each task returns the pair its function returned, its
promise being completed; and every order that names each task completes them
all. -/
theorem Wait_after_all_tasks [Inhabited R] (fns : List (Func R E)) (env : E) (j : Nat)
    (failure : GoError) (hj : j < fns.length)
    (hret : ∀ (i : Nat) (fn : Func R E), fns[i]? = some fn →
      ∃ v env', fn env = (.returns v (if i = j then some failure else none), env'))
    (order : List Nat) :
    (GroupWorld.completeAll order (launchAll env fns GroupWorld.zero)).tasks.length
      = fns.length ∧
    ((∃ t ∈ (GroupWorld.completeAll order (launchAll env fns GroupWorld.zero)).tasks,
        t.pc = .launched) →
      Group.Wait (GroupWorld.completeAll order (launchAll env fns GroupWorld.zero)).group
        = .blocked (GroupWorld.completeAll order (launchAll env fns GroupWorld.zero)).group) ∧
    ((∀ t ∈ (GroupWorld.completeAll order (launchAll env fns GroupWorld.zero)).tasks,
        t.pc = .completed) →
      Group.Wait (GroupWorld.completeAll order (launchAll env fns GroupWorld.zero)).group
        = .returned (some failure)
          (GroupWorld.completeAll order (launchAll env fns GroupWorld.zero)).group ∧
      ∀ t ∈ (GroupWorld.completeAll order (launchAll env fns GroupWorld.zero)).tasks,
        ∃ v e env', t.fn env = (.returns v e, env') ∧ doneClosed t.world = true ∧
          Future.Try (Promise.Future .obj) t.world = .returned (v, e) t.world) ∧
    ((∀ i, i < fns.length → i ∈ order) →
      ∀ t ∈ (GroupWorld.completeAll order (launchAll env fns GroupWorld.zero)).tasks,
        t.pc = .completed) := by
  have h0 := GroupInv_launchAll fns env j failure hret
  have h := GroupInv_completeAll order h0
  have hlen0 : (launchAll env fns (GroupWorld.zero : GroupWorld R E)).tasks.length
      = fns.length := by
    rw [launchAll_eq]; simp [GroupWorld.zero]
  have hlen := (completeAll_length order h0).trans hlen0
  refine ⟨hlen, ?_, ?_, ?_⟩
  · intro hex
    have hpos := launchedCount_pos hex
    rw [← h.count] at hpos
    simp only [Group.Wait]
    rw [if_neg (by omega)]
  · intro hall
    have hz := launchedCount_zero hall
    rw [← h.count] at hz
    refine ⟨?_, ?_⟩
    · have hcell := h.cell
      have hjlt : j < (GroupWorld.completeAll order
          (launchAll env fns GroupWorld.zero)).tasks.length := by rw [hlen]; exact hj
      have hget : (GroupWorld.completeAll order (launchAll env fns GroupWorld.zero)).tasks[j]?
          = some (GroupWorld.completeAll order (launchAll env fns GroupWorld.zero)).tasks[j] := by
        simp [hjlt]
      rw [hget] at hcell
      have hpc := hall _ (List.getElem?_mem hget)
      simp only [hpc, ↓reduceIte] at hcell
      simp only [Group.Wait, hz, ↓reduceIte, hcell]
    · intro t ht
      obtain ⟨i, hi⟩ := List.mem_iff_getElem?.mp ht
      obtain ⟨hok, -⟩ := h.tasks i t hi
      rcases hok with ⟨hpc, -⟩ | ⟨-, v, e, env', hfn, hw⟩
      · rw [hall t ht] at hpc; cases hpc
      · refine ⟨v, e, env', hfn, by rw [hw]; rfl, ?_⟩
        rw [hw]; rfl
  · intro hcover t ht
    obtain ⟨i, hi⟩ := List.mem_iff_getElem?.mp ht
    have hilt : i < fns.length := by
      by_contra hge
      rw [List.getElem?_eq_none (by rw [hlen]; exact Nat.le_of_not_lt hge)] at hi
      cases hi
    obtain ⟨t', ht', hpc⟩ := completed_of_mem order h0 (hcover i hilt)
      (by rw [hlen0]; exact hilt)
    rw [hi] at ht'
    simp only [Option.some.injEq] at ht'
    rw [ht']; exact hpc

/-- Witness of C15: three tasks, the second fails with `errTest`; they complete
in the order third, first, second. -/
theorem Wait_after_all_tasks_witness :
    Group.Wait (GroupWorld.completeAll [2, 0, 1]
        (launchAll ()
          [fun env => (FnResult.returns (1 : Nat) none, env),
           fun env => (FnResult.returns 0 (some (.leaf "test error")), env),
           fun env => (FnResult.returns 2 none, env)] GroupWorld.zero)).group
      = .returned (some (.leaf "test error"))
        (GroupWorld.completeAll [2, 0, 1]
          (launchAll ()
            [fun env => (FnResult.returns (1 : Nat) none, env),
             fun env => (FnResult.returns 0 (some (.leaf "test error")), env),
             fun env => (FnResult.returns 2 none, env)] GroupWorld.zero)).group ∧
    ∀ t ∈ (GroupWorld.completeAll [2, 0, 1]
        (launchAll ()
          [fun env => (FnResult.returns (1 : Nat) none, env),
           fun env => (FnResult.returns 0 (some (.leaf "test error")), env),
           fun env => (FnResult.returns 2 none, env)] GroupWorld.zero)).tasks,
      ∃ v e env', t.fn () = (.returns v e, env') ∧ doneClosed t.world = true ∧
        Future.Try (Promise.Future .obj) t.world = .returned (v, e) t.world :=
  (Wait_after_all_tasks
    [fun env => (FnResult.returns (1 : Nat) none, env),
     fun env => (FnResult.returns 0 (some (.leaf "test error")), env),
     fun env => (FnResult.returns 2 none, env)] () 1 (.leaf "test error") (by decide)
    (by
      intro i fn h
      rcases i with _ | _ | _ | i
      · simp only [List.getElem?_cons_zero, Option.some.injEq] at h
        subst h; exact ⟨_, _, rfl⟩
      · simp only [List.getElem?_cons_succ, List.getElem?_cons_zero, Option.some.injEq] at h
        subst h; exact ⟨_, _, rfl⟩
      · simp only [List.getElem?_cons_succ, List.getElem?_cons_zero, Option.some.injEq] at h
        subst h; exact ⟨_, _, rfl⟩
      · simp at h)
    [2, 0, 1]).2.2.1
  ((Wait_after_all_tasks
    [fun env => (FnResult.returns (1 : Nat) none, env),
     fun env => (FnResult.returns 0 (some (.leaf "test error")), env),
     fun env => (FnResult.returns 2 none, env)] () 1 (.leaf "test error") (by decide)
    (by
      intro i fn h
      rcases i with _ | _ | _ | i
      · simp only [List.getElem?_cons_zero, Option.some.injEq] at h
        subst h; exact ⟨_, _, rfl⟩
      · simp only [List.getElem?_cons_succ, List.getElem?_cons_zero, Option.some.injEq] at h
        subst h; exact ⟨_, _, rfl⟩
      · simp only [List.getElem?_cons_succ, List.getElem?_cons_zero, Option.some.injEq] at h
        subst h; exact ⟨_, _, rfl⟩
      · simp at h)
    [2, 0, 1]).2.2.2
    (by
      intro i hi
      simp only [List.length_cons, List.length_nil] at hi
      interval_cases i <;> simp))

end Async
